import Mathlib

/-!
# horosphere: speaker layouts and distance-based amplitude panning

Shallow embedding of `src/include/horo_AudioSpatializer.h` (`hs::SpeakerLayout<L, N>`).

Conventions of the embedding.

* C++ `int` values are Lean integers; `%` on `int` is the truncating remainder `Int.tmod`
  (the sign follows the dividend).  Signed overflow is undefined behaviour in C++ and is not
  modelled: the statements below concern executions in which `ch + n` fits an `int`.
* `float` / `double` arithmetic is idealised by an arbitrary field `α` (the theorems take
  `α := ℝ`); `sqrt` and `pow` from `<cmath>` are passed in as functions, so that every
  definition stays executable (for instance over `ℚ` with a rational stand-in for `sqrt`).
* A local variable that the source reads without having initialised it (`sum` and, when the
  source sits on a speaker, `dist` in `mix`) holds an indeterminate value.  Such values are
  explicit inputs of the embedding (`Indeterminate`).
* The storage of a `SpeakerLayout` object before its constructor body runs is an explicit
  input of `construct`; fields the constructor does not assign keep what the storage held.
* Printing to `cout` is not modelled.
* The gfx library (`gfx::Vec3f`, `gfx::Quat`) is not part of the sources.  `init` takes its
  rotations from a record `Gfx`; `gfxModel` is that record as the spec describes it.
* Real arithmetic gives no value to a division by zero or to the square root of a negative
  number, while `/` and `Real.sqrt` are total and return `0` there.  That the code performs
  no such division is stated on the list of its divisors (`mixDivisors`).
-/

namespace hs

/-- Modelled from the spec: `gfx::Vec3f`, the 3D position type of the external gfx library
(`gfx/gfx_matrix.h` is not part of the sources).  The spec asks of it a subtraction and a
squared magnitude. -/
structure Vec3 (α : Type) where
  x : α
  y : α
  z : α

namespace Vec3

variable {α : Type}

/-- Modelled from the spec: `a - b` on `gfx::Vec3f`, componentwise subtraction. -/
def sub [Sub α] (a b : Vec3 α) : Vec3 α :=
  ⟨a.x - b.x, a.y - b.y, a.z - b.z⟩

/-- Modelled from the spec: `gfx::Vec3f::sq()`, the squared Euclidean magnitude `|a|²`. -/
def sq [Add α] [Mul α] (a : Vec3 α) : α :=
  a.x * a.x + a.y * a.y + a.z * a.z

/-- Euclidean magnitude `|a|`, for a given square-root function (used to state properties,
the source only ever takes `sqrt` of `sq`). -/
def norm [Add α] [Mul α] (sqrt : α → α) (a : Vec3 α) : α :=
  sqrt a.sq

end Vec3

/-- Modelled from the spec: what `init` for the allosphere takes from the external gfx
library and its macros: the constants `PI` and `PIOVERFOUR`, the axis-angle constructor
`gfx::Quat(angle, axis)` and `gfx::Quat::spin(v, q)`.  `Q` is the quaternion type. -/
structure Gfx (α Q : Type) where
  PI : α
  PIOVERFOUR : α
  quat : α → Vec3 α → Q
  spin : Vec3 α → Q → Vec3 α

/-- Macro `#define DESKTOP_LAYOUT 0`. -/
abbrev DESKTOP_LAYOUT : Int := 0

/-- Macro `#define NUM_DESKTOP_SPEAKERS 2`. -/
abbrev NUM_DESKTOP_SPEAKERS : Nat := 2

/-- Macro `#define ALLO_LAYOUT 1`. -/
abbrev ALLO_LAYOUT : Int := 1

/-- Macro `#define NUM_ALLO_SPEAKERS 60`. -/
abbrev NUM_ALLO_SPEAKERS : Nat := 60

/-- The two layouts for which the header defines `init`. -/
inductive Layout where
  | Desktop
  | Allo
  deriving DecidableEq

/-- Template argument `L` of a layout. -/
def Layout.L : Layout → Int
  | .Desktop => DESKTOP_LAYOUT
  | .Allo => ALLO_LAYOUT

/-- Template argument `N` of a layout: its number of channels. -/
abbrev Layout.N : Layout → Nat
  | .Desktop => NUM_DESKTOP_SPEAKERS
  | .Allo => NUM_ALLO_SPEAKERS

/-- Data members of `SpeakerLayout<L, N>`: `gfx::Vec3f pos[N]`, `float RollOff`,
`int ref[N]`.  (The static `Group` table is declared but never used.) -/
structure SpeakerLayout (α : Type) (N : Nat) where
  pos : Fin N → Vec3 α
  RollOff : α
  ref : Fin N → Int

/-- Indeterminate values read by `mix`: the initial content of `float sum;` and, for the
`i`-th pass of the first loop, the content of `float dist;` before any assignment. -/
structure Indeterminate (α : Type) where
  sum : α
  dist : Nat → α

/-- Conversion of a floating-point value to `int` as C++ performs it when a `double` is
passed for an `int` parameter: the fractional part is discarded (truncation toward zero).
The value is held as an exact rational. -/
def doubleToInt (q : ℚ) : Int :=
  Int.tdiv q.num q.den

namespace SpeakerLayout

variable {α : Type} {N : Nat}

/-- Source: `int num() { return N; }` -/
def num (_s : SpeakerLayout α N) : Int :=
  N

/-- Source: `int move( int ch, int n ){ return (ch + n) % N; }` -/
def move (N : Nat) (ch n : Int) : Int :=
  Int.tmod (ch + n) N

/-- Source: `int opp( int ch ) { return move ( ch, N / 2. ); }`; the step is the `double`
value `N / 2.` (exact), converted to `int` at the call. -/
def opp (N : Nat) (ch : Int) : Int :=
  move N ch (doubleToInt ((N : ℚ) / 2))

/-- Source: `int next( int ch ){ return move (ch, ch + 1); }` -/
def next (N : Nat) (ch : Int) : Int :=
  move N ch (ch + 1)

/-- Source: `int reflect( int ch) { return ref[ch]; }`; an index outside `ref[N]` has no
defined result (`none`). -/
def reflect (s : SpeakerLayout α N) (ch : Int) : Option Int :=
  if h : 0 ≤ ch ∧ ch < N then some (s.ref ⟨ch.toNat, by omega⟩) else none

/-- Source: `void calcRolloff( float dec) { RollOff = pow(10., -dec/20.0); }` -/
def calcRolloff [Field α] (pow : α → α → α) (s : SpeakerLayout α N) (dec : α) :
    SpeakerLayout α N :=
  { s with RollOff := pow 10 (-dec / 20) }

/-- Assignment `pos[i] = p` for an index inside `pos[N]` (the loops of `init` only use such
indices; any other index leaves the layout as it is). -/
def setPos (s : SpeakerLayout α N) (i : Nat) (p : Vec3 α) : SpeakerLayout α N :=
  if h : i < N then { s with pos := Function.update s.pos ⟨i, h⟩ p } else s

/-- Desktop `init()`: `pos[0] = gfx::Vec3f(-1,0,0); pos[1] = gfx::Vec3f(1,0,0);` -/
def initDesktop [Field α] (s : SpeakerLayout α 2) : SpeakerLayout α 2 :=
  let s := setPos s 0 ⟨-1, 0, 0⟩
  setPos s 1 ⟨1, 0, 0⟩

/-- One ring of the allosphere `init()`: the loop
`for (int i = lo; i < hi; ++i){ t = 1.0 * ix / den; q = Quat(PI * t, Vec3f(0,1,0));
pos[i] = Quat::spin(rv, q); ix++; }` started with `ix = 0`. -/
def ring [Field α] {Q : Type} (g : Gfx α Q) (rv : Vec3 α) (den : α) (lo hi : Nat)
    (s : SpeakerLayout α N) : SpeakerLayout α N :=
  ((List.Ico lo hi).foldl
    (fun (st : SpeakerLayout α N × Nat) (i : Nat) =>
      let t : α := 1 * (st.2 : α) / den
      let q := g.quat (g.PI * t) ⟨0, 1, 0⟩
      (setPos st.1 i (g.spin rv q), st.2 + 1))
    (s, 0)).1

/-- Allosphere `init()`: top ring `[0,12)`, middle ring `[16,46)`, bottom ring `[48,60)`. -/
def initAllo [Field α] {Q : Type} (g : Gfx α Q) (s : SpeakerLayout α 60) :
    SpeakerLayout α 60 :=
  let mv : Vec3 α := ⟨-1, 0, 0⟩
  let tv := g.spin mv (g.quat (g.PIOVERFOUR / 2) ⟨0, 0, -1⟩)
  let s := ring g tv 12 0 12 s
  let s := ring g mv 20 16 46 s
  let bv := g.spin mv (g.quat (-g.PIOVERFOUR / 2) ⟨0, 0, -1⟩)
  ring g bv 12 48 60 s

/-- Source: `void init()`, selected by the layout (template specialisation in the source). -/
def init [Field α] {Q : Type} (g : Gfx α Q) :
    (L : Layout) → SpeakerLayout α L.N → SpeakerLayout α L.N
  | .Desktop, s => initDesktop s
  | .Allo, s => initAllo g s

/-- Source: `SpeakerLayout(float r = 3) { calcRolloff(r); init(); }`, run on the storage
`mem`. -/
def construct [Field α] {Q : Type} (pow : α → α → α) (g : Gfx α Q) (L : Layout)
    (mem : SpeakerLayout α L.N) (r : α) : SpeakerLayout α L.N :=
  init g L (calcRolloff pow mem r)

/-- First loop of `mix`, one pass for channel `i`:
`dir = pos[i] - v; mag = dir.sq(); float id = 0; float dist;
if (!mag == 0){ id = 1.0 / mag; dist = 1.0/sqrt(mag); } m.push_back(dist); sum += id;`.
`!mag == 0` parses as `(!mag) == 0`, where `!mag` is the `bool` "mag is zero". -/
def mixPass [Field α] [DecidableEq α] (sqrt : α → α) (s : SpeakerLayout α N)
    (u : Indeterminate α) (v : Vec3 α) (st : List α × α) (i : Fin N) : List α × α :=
  let dir := (s.pos i).sub v
  let mag := dir.sq
  let notMag : Bool := decide (mag = 0)
  let idDist : α × α := if notMag = false then (1 / mag, 1 / sqrt mag) else (0, u.dist i)
  (st.1 ++ [idDist.2], st.2 + idDist.1)

/-- Second loop of `mix`: `for (int i = 0; i < N; ++i){ m[i] *= k; }`. -/
def mixScale [Field α] (k : α) (N : Nat) (m : List α) : List α :=
  (List.range N).foldl (fun m i => m.modify (fun x => x * k) i) m

/-- Source: `vector<float> mix(gfx::Vec3f v)`, that is `vector<float> m; float sum;`, the
first loop over the channels, `float k = RollOff / sqrt(sum);`, the second loop,
`return m;`. -/
def mix [Field α] [DecidableEq α] (sqrt : α → α) (s : SpeakerLayout α N)
    (u : Indeterminate α) (v : Vec3 α) : List α :=
  let st := (List.finRange N).foldl (mixPass sqrt s u v) ([], u.sum)
  let k := s.RollOff / sqrt st.2
  mixScale k N st.1

/-- Storage filled with zeros (an object of static storage duration before its
constructor runs). -/
def zeroed (α : Type) [Zero α] (N : Nat) : SpeakerLayout α N :=
  ⟨fun _ => ⟨0, 0, 0⟩, 0, fun _ => 0⟩

end SpeakerLayout

/-- Spec side of `mix`, step 3: the raw contribution `dist_i = 1/sqrt(mag)` of channel `i`,
or the indeterminate value when `mag = 0` (step 2). -/
def rawDist {α : Type} {N : Nat} [Field α] [DecidableEq α] (sqrt : α → α)
    (s : SpeakerLayout α N) (u : Indeterminate α) (v : Vec3 α) (i : Fin N) : α :=
  if ((s.pos i).sub v).sq = 0 then u.dist i else 1 / sqrt ((s.pos i).sub v).sq

/-- Spec side of `mix`, steps 2 to 4: the term `invSq = 1/mag` of channel `i`, zero when
`mag = 0`. -/
def invSq {α : Type} {N : Nat} [Field α] [DecidableEq α]
    (s : SpeakerLayout α N) (v : Vec3 α) (i : Fin N) : α :=
  if ((s.pos i).sub v).sq = 0 then 0 else 1 / ((s.pos i).sub v).sq

/-- Spec side of `mix`, steps 5 and 6: `gain_i = dist_i · k` with
`k = rolloff / sqrt(sum)`, the sum being the initial content of `sum` plus all `invSq`. -/
def gainSpec {α : Type} {N : Nat} [Field α] [DecidableEq α] (sqrt : α → α)
    (s : SpeakerLayout α N) (u : Indeterminate α) (v : Vec3 α) (i : Fin N) : α :=
  rawDist sqrt s u v i * (s.RollOff / sqrt (u.sum + ∑ j, invSq s v j))

namespace SpeakerLayout

variable {α : Type} {N : Nat}

/-- State `(m, sum)` of `mix` when its first loop has run over all channels. -/
def mixLoop [Field α] [DecidableEq α] (sqrt : α → α) (s : SpeakerLayout α N)
    (u : Indeterminate α) (v : Vec3 α) : List α × α :=
  (List.finRange N).foldl (mixPass sqrt s u v) ([], u.sum)

/-- Divisors of the divisions the first loop of `mix` performs in its pass for channel `i`:
`mag` of `1.0 / mag` and `sqrt(mag)` of `1.0/sqrt(mag)` when the guard `!mag == 0` lets the
block run, none when it skips the block. -/
def passDivisors [Field α] [DecidableEq α] (sqrt : α → α) (s : SpeakerLayout α N)
    (v : Vec3 α) (i : Fin N) : List α :=
  let dir := (s.pos i).sub v
  let mag := dir.sq
  let notMag : Bool := decide (mag = 0)
  if notMag = false then [mag, sqrt mag] else []

/-- Divisors of all the divisions `mix` performs, in order: those of the first loop, then
`sqrt(sum)` of `float k = RollOff / sqrt(sum);`. -/
def mixDivisors [Field α] [DecidableEq α] (sqrt : α → α) (s : SpeakerLayout α N)
    (u : Indeterminate α) (v : Vec3 α) : List α :=
  (List.finRange N).flatMap (passDivisors sqrt s v) ++ [sqrt (mixLoop sqrt s u v).2]

end SpeakerLayout

namespace Vec3

variable {α : Type}

/-- Dot product `a · b` (used to state properties). -/
def dot [Add α] [Mul α] (a b : Vec3 α) : α :=
  a.x * b.x + a.y * b.y + a.z * b.z

/-- Point `p + t·w` of the ray that starts at `p` and runs in direction `w`; for a unit
direction `t` is the distance from `p` (used to state properties). -/
def alongRay [Add α] [Mul α] (p w : Vec3 α) (t : α) : Vec3 α :=
  ⟨p.x + t * w.x, p.y + t * w.y, p.z + t * w.z⟩

end Vec3

/-- Modelled from the spec: `gfx::Quat` of the external gfx library (not part of the
sources), a quaternion `w + x·i + y·j + z·k`. -/
structure Quat (α : Type) where
  w : α
  x : α
  y : α
  z : α

namespace Quat

variable {α : Type}

/-- Hamilton product of two quaternions. -/
def mul [Field α] (p q : Quat α) : Quat α :=
  ⟨p.w * q.w - p.x * q.x - p.y * q.y - p.z * q.z,
   p.w * q.x + p.x * q.w + p.y * q.z - p.z * q.y,
   p.w * q.y - p.x * q.z + p.y * q.w + p.z * q.x,
   p.w * q.z + p.x * q.y - p.y * q.x + p.z * q.w⟩

/-- Squared norm of a quaternion. -/
def normSq [Field α] (q : Quat α) : α :=
  q.w * q.w + q.x * q.x + q.y * q.y + q.z * q.z

/-- Inverse `q⁻¹`, the conjugate divided by the squared norm. -/
def inv [Field α] (q : Quat α) : Quat α :=
  ⟨q.w / q.normSq, -q.x / q.normSq, -q.y / q.normSq, -q.z / q.normSq⟩

/-- Modelled from the spec: `gfx::Quat(angle, axis)`, the quaternion of the rotation by
`angle` (radians) about `axis`, namely `cos(angle/2) + sin(angle/2)·axis`. -/
def axisAngle [Field α] (cos sin : α → α) (angle : α) (axis : Vec3 α) : Quat α :=
  ⟨cos (angle / 2), sin (angle / 2) * axis.x, sin (angle / 2) * axis.y,
   sin (angle / 2) * axis.z⟩

/-- Modelled from the spec: `gfx::Quat::spin(v, q)`, the conjugation `q v q⁻¹` of the
vector `v` taken as the pure quaternion `x·i + y·j + z·k`. -/
def spin [Field α] (v : Vec3 α) (q : Quat α) : Vec3 α :=
  let r := mul (mul q ⟨0, v.x, v.y, v.z⟩) (inv q)
  ⟨r.x, r.y, r.z⟩

end Quat

/-- Modelled from the spec: the gfx library as the spec describes it, for given `cos`, `sin`
and `π`: `PI = π`, `PIOVERFOUR = π/4` (its half `π/8` is the tilt of the outer rings),
axis-angle quaternions and `spin(v, q) = q v q⁻¹`. -/
def gfxModel {α : Type} [Field α] (cos sin : α → α) (pi : α) : Gfx α (Quat α) :=
  ⟨pi, pi / 4, Quat.axisAngle cos sin, Quat.spin⟩

namespace SpeakerLayout

variable {α : Type} {N : Nat}

/-- Gain of channel `i` in the vector returned by `mix`: its entry `i` (the vector has `N`
entries, so the fallback `0` is never taken). -/
def gain [Field α] [DecidableEq α] (sqrt : α → α) (s : SpeakerLayout α N)
    (u : Indeterminate α) (v : Vec3 α) (i : Fin N) : α :=
  (mix sqrt s u v).getD i 0

/-- Modelled from the spec: the object as the default construction of its members leaves
it, before the constructor body runs.  `gfx::Vec3f` is not part of the sources; the spec
asks that a slot `init` does not place holds "a documented sentinel/default value (not
garbage)", so every slot of `pos` starts at one value `dflt`, the value of `gfx::Vec3f()`.
`RollOff` and `ref` are plain `float` and `int` members and keep what the raw storage
held. -/
def defaultInit (dflt : Vec3 α) (raw : SpeakerLayout α N) : SpeakerLayout α N :=
  { raw with pos := fun _ => dflt }

end SpeakerLayout

/-! ## Channel arithmetic: helper lemmas -/

namespace SpeakerLayout

variable {α : Type} {N : Nat}

/-- The `double` value `N / 2.` converts to the integer quotient of `N` by 2. -/
theorem doubleToInt_half (N : Nat) : doubleToInt ((N : ℚ) / 2) = (N : Int) / 2 := by
  have hq : (0 : ℚ) ≤ (N : ℚ) / 2 := by positivity
  have hnum : 0 ≤ ((N : ℚ) / 2).num := Rat.num_nonneg.mpr hq
  unfold doubleToInt
  rw [Int.tdiv_eq_ediv hnum (Int.ofNat_nonneg _), ← Rat.floor_def]
  have h := Rat.floor_intCast_div_natCast (N : Int) 2
  simpa using h

/-- On a non-negative sum the C++ remainder is the mathematical one. -/
theorem move_eq_emod (N : Nat) (ch n : Int) (h : 0 ≤ ch + n) :
    move N ch n = (ch + n) % (N : Int) := by
  unfold move
  exact Int.tmod_eq_emod h (Int.ofNat_nonneg N)

/-! ## The loops of mix: helper lemmas -/

/-- Entries of a list after the first `n` passes of the scaling loop. -/
theorem scale_fold_entry (f : α → α) (n : Nat) (m : List α) (j : Nat) :
    ((List.range n).foldl (fun m i => m.modify f i) m)[j]? =
      if j < n then Option.map f m[j]? else m[j]? := by
  induction n with
  | zero => simp
  | succ n ih =>
    rw [List.range_succ, List.foldl_append]
    simp only [List.foldl_cons, List.foldl_nil]
    rw [List.getElem?_modify, ih]
    by_cases h1 : n = j
    · subst h1
      simp
    · by_cases h2 : j < n
      · have h3 : j < n + 1 := by omega
        simp [h1, h2, h3]
      · have h3 : ¬ j < n + 1 := by omega
        simp [h1, h2, h3]

/-- The second loop of `mix` multiplies every entry of an `N`-entry vector by `k`. -/
theorem mixScale_eq_map [Field α] (k : α) (m : List α) (h : m.length = N) :
    mixScale k N m = m.map (fun x => x * k) := by
  apply List.ext_getElem?
  intro j
  unfold mixScale
  rw [scale_fold_entry, List.getElem?_map]
  by_cases hj : j < N
  · simp [hj]
  · have h1 : m[j]? = none := List.getElem?_eq_none (by omega)
    simp [hj, h1]

/-- One pass of the first loop in terms of `rawDist` and `invSq`. -/
theorem mixPass_eq [Field α] [DecidableEq α] (sqrt : α → α) (s : SpeakerLayout α N)
    (u : Indeterminate α) (v : Vec3 α) (st : List α × α) (i : Fin N) :
    mixPass sqrt s u v st i = (st.1 ++ [rawDist sqrt s u v i], st.2 + invSq s v i) := by
  unfold mixPass rawDist invSq
  by_cases h : ((s.pos i).sub v).sq = 0 <;> simp [h]

/-- The first loop of `mix` run over a list of channels. -/
theorem foldl_mixPass [Field α] [DecidableEq α] (sqrt : α → α) (s : SpeakerLayout α N)
    (u : Indeterminate α) (v : Vec3 α) (l : List (Fin N)) (a : List α) (b : α) :
    l.foldl (mixPass sqrt s u v) (a, b) =
      (a ++ l.map (rawDist sqrt s u v), b + (l.map (invSq s v)).sum) := by
  induction l generalizing a b with
  | nil => simp
  | cons i l ih =>
    rw [List.foldl_cons, mixPass_eq, ih]
    simp [add_assoc]

/-- Closed form of `mix`: the vector of the `gainSpec i`, in channel order. -/
theorem mix_eq_ofFn [Field α] [DecidableEq α] (sqrt : α → α) (s : SpeakerLayout α N)
    (u : Indeterminate α) (v : Vec3 α) :
    mix sqrt s u v = List.ofFn (gainSpec sqrt s u v) := by
  unfold mix
  rw [foldl_mixPass]
  simp only [List.nil_append]
  rw [mixScale_eq_map _ _ (by simp), List.map_map, List.ofFn_eq_map]
  congr 1

/-- Entry `i` of the vector returned by `mix`. -/
theorem mix_entry [Field α] [DecidableEq α] (sqrt : α → α) (s : SpeakerLayout α N)
    (u : Indeterminate α) (v : Vec3 α) (i : Fin N) :
    (mix sqrt s u v)[(i : Nat)]? = some (gainSpec sqrt s u v i) := by
  rw [mix_eq_ofFn, List.getElem?_ofFn]
  simp [List.ofFnNthVal]

/-! ## Construction: helper lemmas -/

/-- Writing a position leaves the reflection table alone. -/
theorem setPos_ref (s : SpeakerLayout α N) (i : Nat) (p : Vec3 α) :
    (setPos s i p).ref = s.ref := by
  unfold setPos
  split <;> rfl

/-- Writing a position leaves the rolloff alone. -/
theorem setPos_RollOff (s : SpeakerLayout α N) (i : Nat) (p : Vec3 α) :
    (setPos s i p).RollOff = s.RollOff := by
  unfold setPos
  split <;> rfl

/-- Reading back the slot just written. -/
theorem setPos_pos_same (s : SpeakerLayout α N) (i : Fin N) (p : Vec3 α) :
    (setPos s i p).pos i = p := by
  unfold setPos
  simp

/-- Reading another slot than the one written. -/
theorem setPos_pos_other (s : SpeakerLayout α N) (i : Nat) (j : Fin N) (p : Vec3 α)
    (h : (j : Nat) ≠ i) : (setPos s i p).pos j = s.pos j := by
  unfold setPos
  split
  · have hne : j ≠ ⟨i, by assumption⟩ := fun e => h (by rw [e])
    simp [Function.update_noteq hne]
  · rfl

/-- A ring of the allosphere `init` writes positions only. -/
theorem ring_ref [Field α] {Q : Type} (g : Gfx α Q) (rv : Vec3 α) (den : α) (lo hi : Nat)
    (s : SpeakerLayout α N) : (ring g rv den lo hi s).ref = s.ref := by
  unfold ring
  generalize (0 : Nat) = ix
  generalize List.Ico lo hi = l
  induction l generalizing s ix with
  | nil => rfl
  | cons i l ih =>
    rw [List.foldl_cons, ih]
    exact setPos_ref _ _ _

/-- Neither `init` writes the reflection table. -/
theorem init_ref [Field α] {Q : Type} (g : Gfx α Q) (L : Layout)
    (s : SpeakerLayout α L.N) : (init g L s).ref = s.ref := by
  cases L with
  | Desktop =>
    show (initDesktop s).ref = s.ref
    unfold initDesktop
    rw [setPos_ref, setPos_ref]
  | Allo =>
    show (initAllo g s).ref = s.ref
    unfold initAllo
    simp only [ring_ref]

/-- The constructor does not write the reflection table. -/
theorem construct_ref [Field α] {Q : Type} (pow : α → α → α) (g : Gfx α Q) (L : Layout)
    (mem : SpeakerLayout α L.N) (r : α) : (construct pow g L mem r).ref = mem.ref := by
  unfold construct
  rw [init_ref]
  rfl

/-- The lookup `reflect` only depends on the reflection table. -/
theorem reflect_congr (s t : SpeakerLayout α N) (h : s.ref = t.ref) (ch : Int) :
    reflect s ch = reflect t ch := by
  unfold reflect
  rw [h]

/-- Rolloff of a constructed Desktop layout. -/
theorem construct_desktop_RollOff [Field α] {Q : Type} (pow : α → α → α) (g : Gfx α Q)
    (mem : SpeakerLayout α 2) (r : α) :
    (construct pow g Layout.Desktop mem r).RollOff = pow 10 (-r / 20) := by
  show (initDesktop (calcRolloff pow mem r)).RollOff = _
  unfold initDesktop
  rw [setPos_RollOff, setPos_RollOff]
  rfl

/-- Speaker 0 of a constructed Desktop layout. -/
theorem construct_desktop_pos0 [Field α] {Q : Type} (pow : α → α → α) (g : Gfx α Q)
    (mem : SpeakerLayout α 2) (r : α) :
    (construct pow g Layout.Desktop mem r).pos 0 = ⟨-1, 0, 0⟩ := by
  show (initDesktop (calcRolloff pow mem r)).pos 0 = _
  unfold initDesktop
  rw [setPos_pos_other _ 1 0 _ (by decide)]
  exact setPos_pos_same _ 0 _

/-- Speaker 1 of a constructed Desktop layout. -/
theorem construct_desktop_pos1 [Field α] {Q : Type} (pow : α → α → α) (g : Gfx α Q)
    (mem : SpeakerLayout α 2) (r : α) :
    (construct pow g Layout.Desktop mem r).pos 1 = ⟨1, 0, 0⟩ := by
  show (initDesktop (calcRolloff pow mem r)).pos 1 = _
  unfold initDesktop
  exact setPos_pos_same _ 1 _

/-! ## Real arithmetic: helper lemmas -/

/-- Over the reals the squared magnitude is never negative. -/
theorem sq_nonneg_real (a : Vec3 ℝ) : 0 ≤ a.sq := by
  unfold Vec3.sq
  nlinarith [mul_self_nonneg a.x, mul_self_nonneg a.y, mul_self_nonneg a.z]

/-- Over the reals `mag` is zero exactly when the source sits on the speaker. -/
theorem sq_sub_eq_zero_iff (a b : Vec3 ℝ) : (a.sub b).sq = 0 ↔ a = b := by
  constructor
  · intro h
    unfold Vec3.sq Vec3.sub at h
    simp only at h
    have hx : a.x - b.x = 0 := by
      nlinarith [mul_self_nonneg (a.x - b.x), mul_self_nonneg (a.y - b.y),
        mul_self_nonneg (a.z - b.z)]
    have hy : a.y - b.y = 0 := by
      nlinarith [mul_self_nonneg (a.x - b.x), mul_self_nonneg (a.y - b.y),
        mul_self_nonneg (a.z - b.z)]
    have hz : a.z - b.z = 0 := by
      nlinarith [mul_self_nonneg (a.x - b.x), mul_self_nonneg (a.y - b.y),
        mul_self_nonneg (a.z - b.z)]
    cases a
    cases b
    simp only [Vec3.mk.injEq]
    simp only at hx hy hz
    exact ⟨by linarith, by linarith, by linarith⟩
  · intro h
    subst h
    simp [Vec3.sq, Vec3.sub]

/-- The square of the Euclidean magnitude is the squared magnitude `sq`. -/
theorem norm_sq_real (a : Vec3 ℝ) : (Vec3.norm Real.sqrt a) ^ 2 = a.sq :=
  Real.sq_sqrt (sq_nonneg_real a)

/-- Square root of a quarter. -/
theorem sqrt_quarter : Real.sqrt (1 / 4) = 1 / 2 := by
  rw [show (1 / 4 : ℝ) = (1 / 2) ^ 2 by norm_num]
  exact Real.sqrt_sq (by norm_num)

/-- Square root of four. -/
theorem sqrt_four : Real.sqrt 4 = 2 := by
  rw [show (4 : ℝ) = 2 ^ 2 by norm_num]
  exact Real.sqrt_sq (by norm_num)

/-- Gain of channel 0 of a stereo pair at (∓1,0,0) for a source on speaker 0, the unset
`dist` holding `-1` and the sum starting at zero. -/
theorem gainSpec_on_speaker (s : SpeakerLayout ℝ 2) (h0 : s.pos 0 = ⟨-1, 0, 0⟩)
    (h1 : s.pos 1 = ⟨1, 0, 0⟩) :
    gainSpec Real.sqrt s ⟨0, fun _ => -1⟩ ⟨-1, 0, 0⟩ 0 = -(2 * s.RollOff) := by
  have hs : ∑ j : Fin 2, invSq s ⟨-1, 0, 0⟩ j = 1 / 4 := by
    simp only [invSq, Fin.sum_univ_two, h0, h1, Vec3.sub, Vec3.sq]
    norm_num
  have hd : rawDist Real.sqrt s ⟨0, fun _ => -1⟩ ⟨-1, 0, 0⟩ 0 = -1 := by
    simp only [rawDist, h0, Vec3.sub, Vec3.sq]
    norm_num
  rw [gainSpec, hs, hd, zero_add, sqrt_quarter]
  ring

/-- Gains of a stereo pair at (∓1,0,0) for a source at the origin: both are
`RollOff / sqrt(sum₀ + 2)`, where `sum₀` is what `sum` held before the first loop. -/
theorem gainSpec_origin (s : SpeakerLayout ℝ 2) (u : Indeterminate ℝ)
    (h0 : s.pos 0 = ⟨-1, 0, 0⟩) (h1 : s.pos 1 = ⟨1, 0, 0⟩) (i : Fin 2) :
    gainSpec Real.sqrt s u ⟨0, 0, 0⟩ i = s.RollOff / Real.sqrt (u.sum + 2) := by
  have hs : ∑ j : Fin 2, invSq s ⟨0, 0, 0⟩ j = 2 := by
    simp only [invSq, Fin.sum_univ_two, h0, h1, Vec3.sub, Vec3.sq]
    norm_num
  have hd : rawDist Real.sqrt s u ⟨0, 0, 0⟩ i = 1 := by
    fin_cases i
    · simp only [rawDist, Fin.zero_eta, h0, Vec3.sub, Vec3.sq]
      norm_num
    · simp only [rawDist, Fin.mk_one, h1, Vec3.sub, Vec3.sq]
      norm_num
  rw [gainSpec, hs, hd, one_mul]

/-- A source equidistant from the two speakers of a stereo pair at (∓1,0,0) gets the same
gain on both channels, whatever the indeterminate values are. -/
theorem gainSpec_equidistant (s : SpeakerLayout ℝ 2) (u : Indeterminate ℝ) (v : Vec3 ℝ)
    (h0 : s.pos 0 = ⟨-1, 0, 0⟩) (h1 : s.pos 1 = ⟨1, 0, 0⟩)
    (heq : ((s.pos 0).sub v).sq = ((s.pos 1).sub v).sq) :
    gainSpec Real.sqrt s u v 0 = gainSpec Real.sqrt s u v 1 := by
  have hne : ((s.pos 1).sub v).sq ≠ 0 := by
    intro h
    have e1 : s.pos 1 = v := (sq_sub_eq_zero_iff _ _).mp h
    have e0 : s.pos 0 = v := (sq_sub_eq_zero_iff _ _).mp (heq.trans h)
    have : s.pos 0 = s.pos 1 := e0.trans e1.symm
    rw [h0, h1] at this
    simp only [Vec3.mk.injEq] at this
    norm_num at this
  simp only [gainSpec, rawDist, heq, hne, if_false]

/-- On a constructed Desktop layout a source equidistant from the two speakers gets the
same gain on channel 0 and on channel 1, for every content of the unset variables. -/
theorem desktop_equidistant_gains_equal {Q : Type} (g : Gfx ℝ Q) (mem : SpeakerLayout ℝ 2)
    (d : ℝ) (u : Indeterminate ℝ) (v : Vec3 ℝ)
    (heq : (((construct Real.rpow g Layout.Desktop mem d).pos 0).sub v).sq =
      (((construct Real.rpow g Layout.Desktop mem d).pos 1).sub v).sq) :
    (mix Real.sqrt (construct Real.rpow g Layout.Desktop mem d) u v)[0]? =
      (mix Real.sqrt (construct Real.rpow g Layout.Desktop mem d) u v)[1]? := by
  have e0 := mix_entry Real.sqrt (construct Real.rpow g Layout.Desktop mem d) u v (0 : Fin 2)
  have e1 := mix_entry Real.sqrt (construct Real.rpow g Layout.Desktop mem d) u v (1 : Fin 2)
  rw [show ((0 : Fin 2) : Nat) = 0 from rfl] at e0
  rw [show ((1 : Fin 2) : Nat) = 1 from rfl] at e1
  rw [e0, e1, gainSpec_equidistant _ u v (construct_desktop_pos0 _ _ _ _)
    (construct_desktop_pos1 _ _ _ _) heq]

/-- On a constructed Desktop layout, with the running sum started at zero, a source at the
origin gets the gain `RollOff / sqrt 2` on both channels. -/
theorem desktop_origin_gains_zero_sum {Q : Type} (g : Gfx ℝ Q) (mem : SpeakerLayout ℝ 2)
    (d : ℝ) (dist : Nat → ℝ) (i : Fin 2) :
    (mix Real.sqrt (construct Real.rpow g Layout.Desktop mem d) ⟨0, dist⟩
        ⟨0, 0, 0⟩)[(i : Nat)]? =
      some ((construct Real.rpow g Layout.Desktop mem d).RollOff / Real.sqrt 2) := by
  rw [mix_entry, gainSpec_origin _ _ (construct_desktop_pos0 _ _ _ _)
    (construct_desktop_pos1 _ _ _ _), zero_add]

/-! ## The claims -/

/-- Claim C1: for every layout and every source position that coincides with no speaker,
with the running sum started at zero and arithmetic over the reals, `mix` returns for
channel `i` the gain `(1/|pos[i]-v|) * RollOff / sqrt(Σ_j 1/|pos[j]-v|²)`. -/
theorem mix_gain_formula (N : Nat) (s : SpeakerLayout ℝ N) (u : Indeterminate ℝ)
    (v : Vec3 ℝ) (hsum : u.sum = 0) (hv : ∀ j : Fin N, s.pos j ≠ v) (i : Fin N) :
    (mix Real.sqrt s u v)[(i : Nat)]? =
      some ((1 / Vec3.norm Real.sqrt ((s.pos i).sub v)) * s.RollOff /
        Real.sqrt (∑ j : Fin N, 1 / (Vec3.norm Real.sqrt ((s.pos j).sub v)) ^ 2)) := by
  rw [mix_entry]
  have hne : ∀ j : Fin N, ((s.pos j).sub v).sq ≠ 0 := fun j h =>
    hv j ((sq_sub_eq_zero_iff _ _).mp h)
  have hinv : ∀ j : Fin N, invSq s v j = 1 / (Vec3.norm Real.sqrt ((s.pos j).sub v)) ^ 2 := by
    intro j
    rw [norm_sq_real]
    simp [invSq, hne j]
  simp only [gainSpec, rawDist, hne i, if_false, hsum, zero_add, hinv, Vec3.norm]
  rw [mul_div_assoc]

/-- Witness of C1: a stereo pair at (∓1,0,0) with rolloff 1 and the source at the origin. -/
theorem mix_gain_formula_witness :
    (∀ j : Fin 2, (⟨![⟨-1, 0, 0⟩, ⟨1, 0, 0⟩], 1, ![1, 0]⟩ : SpeakerLayout ℝ 2).pos j ≠
        (⟨0, 0, 0⟩ : Vec3 ℝ)) ∧
    (mix Real.sqrt (⟨![⟨-1, 0, 0⟩, ⟨1, 0, 0⟩], 1, ![1, 0]⟩ : SpeakerLayout ℝ 2)
        ⟨0, fun _ => 0⟩ ⟨0, 0, 0⟩)[((0 : Fin 2) : Nat)]? =
      some ((1 / Vec3.norm Real.sqrt
          (((⟨![⟨-1, 0, 0⟩, ⟨1, 0, 0⟩], 1, ![1, 0]⟩ : SpeakerLayout ℝ 2).pos 0).sub
            ⟨0, 0, 0⟩)) *
        (⟨![⟨-1, 0, 0⟩, ⟨1, 0, 0⟩], 1, ![1, 0]⟩ : SpeakerLayout ℝ 2).RollOff /
        Real.sqrt (∑ j : Fin 2, 1 / (Vec3.norm Real.sqrt
          (((⟨![⟨-1, 0, 0⟩, ⟨1, 0, 0⟩], 1, ![1, 0]⟩ : SpeakerLayout ℝ 2).pos j).sub
            ⟨0, 0, 0⟩)) ^ 2)) := by
  have hv : ∀ j : Fin 2, (⟨![⟨-1, 0, 0⟩, ⟨1, 0, 0⟩], 1, ![1, 0]⟩ : SpeakerLayout ℝ 2).pos j ≠
      (⟨0, 0, 0⟩ : Vec3 ℝ) := by
    intro j
    fin_cases j <;> simp
  exact ⟨hv, mix_gain_formula 2 _ ⟨0, fun _ => 0⟩ ⟨0, 0, 0⟩ rfl hv 0⟩

/-- Claim C2, evaluated on the code: `next(ch)` is `move(ch, ch + 1)`, not `move(ch, 1)`.
For `N = 2`, `next(1) = 1` while `move(1, 1) = 0`; for `N = 60`, `next(1) = 3` while
`move(1, 1) = 2`. -/
theorem next_skips_channels :
    next 2 1 = 1 ∧ move 2 1 1 = 0 ∧ next 60 1 = 3 ∧ move 60 1 1 = 2 := by
  decide

/-- Claim C3 as stated fails: it is not true that for every `N > 0`, every channel
`0 ≤ ch < N` and every integer step `n`, `move(ch, n)` is `(ch + n) mod N` and lies in
`[0, N)`.  For `N = 2`, `move(0, -1) = -1`. -/
theorem move_negative_step_out_of_range :
    ¬ (∀ (N : Nat), 0 < N → ∀ (ch : Int), 0 ≤ ch → ch < N → ∀ (n : Int),
        move N ch n = (ch + n) % (N : Int) ∧ 0 ≤ move N ch n ∧ move N ch n < N) := by
  intro h
  have h2 := (h 2 (by decide) 0 (by decide) (by decide) (-1)).2.1
  revert h2
  decide

/-- Claim C3, amended: for every `N > 0` and every `ch`, `n` with `ch + n ≥ 0`,
`move(ch, n)` is `(ch + n) mod N` and lies in `[0, N)`. -/
theorem move_in_range (N : Nat) (hN : 0 < N) (ch n : Int) (h : 0 ≤ ch + n) :
    move N ch n = (ch + n) % (N : Int) ∧ 0 ≤ move N ch n ∧ move N ch n < N := by
  have hN' : (0 : Int) < N := by exact_mod_cast hN
  rw [move_eq_emod N ch n h]
  exact ⟨rfl, Int.emod_nonneg _ (ne_of_gt hN'), Int.emod_lt_of_pos _ hN'⟩

/-- Witness of C3 (amended): `N = 60`, channel 59, step 31, and a backward step from
channel 5 by 3. -/
theorem move_in_range_witness :
    ((0 : Nat) < 60 ∧ (0 : Int) ≤ 59 + 31 ∧
      move 60 59 31 = (59 + 31) % ((60 : Nat) : Int) ∧ 0 ≤ move 60 59 31 ∧
      move 60 59 31 < ((60 : Nat) : Int)) ∧ move 60 59 31 = 30 ∧ move 60 5 (-3) = 2 :=
  ⟨⟨by decide, by decide, move_in_range 60 (by decide) 59 31 (by decide)⟩,
    by decide, by decide⟩

/-- Claim C4: for every layout size `N` and every channel `0 ≤ ch < N` (so `N > 0`),
`move(ch, N) = ch`: a full revolution returns to the starting channel. -/
theorem move_full_revolution (N : Nat) (ch : Int) (h0 : 0 ≤ ch) (h1 : ch < N) :
    move N ch N = ch := by
  rw [move_eq_emod N ch N (by omega)]
  rw [Int.add_emod_self]
  exact Int.emod_eq_of_lt h0 h1

/-- Witness of C4: `N = 60`, channel 17. -/
theorem move_full_revolution_witness :
    (0 : Int) ≤ 17 ∧ (17 : Int) < ((60 : Nat) : Int) ∧
      move 60 17 ((60 : Nat) : Int) = 17 :=
  ⟨by decide, by decide, move_full_revolution 60 17 (by decide) (by decide)⟩

/-- Claim C5: for every layout size `N` (even or odd) and every `ch`, `opp(ch)` equals
`move(ch, N/2)` with `N/2` the integer division, which for `N ≥ 0` is the truncating one:
converting the `double` value `N / 2.` to `int` gives exactly that step. -/
theorem opp_eq_move_half (N : Nat) (ch : Int) :
    opp N ch = move N ch ((N : Int) / 2) ∧ (N : Int) / 2 = Int.tdiv N 2 := by
  refine ⟨?_, ?_⟩
  · unfold opp
    rw [doubleToInt_half]
  · exact (Int.tdiv_eq_ediv (Int.ofNat_nonneg N) (by decide)).symm

/-- Claim C6 as stated fails: construction does not make the reflection table a
fixed-point-free involution of `[0, N)`.  A Desktop layout constructed in zero-filled
storage has `reflect(0) = 0`. -/
theorem reflect_fixed_point_after_construct :
    ¬ (∀ (L : Layout) (g : Gfx ℝ Unit) (mem : SpeakerLayout ℝ L.N) (r : ℝ) (i : Int),
        0 ≤ i → i < (L.N : Int) →
        ∃ j : Int, reflect (construct Real.rpow g L mem r) i = some j ∧ 0 ≤ j ∧
          j < (L.N : Int) ∧ j ≠ i ∧ reflect (construct Real.rpow g L mem r) j = some i) := by
  intro h
  obtain ⟨j, hj, _, _, hne, _⟩ := h Layout.Desktop ⟨0, 0, fun _ _ => (), fun v _ => v⟩
    (zeroed ℝ 2) 3 0 (by decide) (by decide)
  rw [reflect_congr _ _ (construct_ref _ _ _ _ _)] at hj
  have h0 : reflect (zeroed ℝ 2) 0 = some 0 := by
    simp [reflect, zeroed]
  rw [h0] at hj
  exact hne (Option.some.inj hj).symm

/-- Claim C6, amended: construction (Desktop or Sphere) never writes the reflection table;
after it `ref` is what the storage held before, and `reflect(i)` for a channel `i` of
`[0, N)` returns that stored entry. -/
theorem construct_leaves_ref [Field α] {Q : Type} (pow : α → α → α) (g : Gfx α Q)
    (L : Layout) (mem : SpeakerLayout α L.N) (r : α) :
    (construct pow g L mem r).ref = mem.ref ∧
      ∀ i : Fin L.N, reflect (construct pow g L mem r) ((i : Nat) : Int) = some (mem.ref i) := by
  refine ⟨construct_ref pow g L mem r, fun i => ?_⟩
  rw [reflect_congr _ _ (construct_ref pow g L mem r)]
  unfold reflect
  have hi : (0 : Int) ≤ ((i : Nat) : Int) ∧ ((i : Nat) : Int) < (L.N : Int) :=
    ⟨Int.ofNat_nonneg _, by exact_mod_cast i.isLt⟩
  rw [dif_pos hi]
  rfl

/-- Claim C7: for every layout of size `N`, every source position (on a speaker or not)
and every content of the unset variables, the vector returned by `mix` has exactly `N`
entries and entry `i` is the gain of channel `i` (its `dist_i` times `k`). -/
theorem mix_length_entries [Field α] [DecidableEq α] (sqrt : α → α)
    (s : SpeakerLayout α N) (u : Indeterminate α) (v : Vec3 α) :
    (mix sqrt s u v).length = N ∧
      ∀ i : Fin N, (mix sqrt s u v)[(i : Nat)]? = some (gainSpec sqrt s u v i) := by
  refine ⟨?_, fun i => mix_entry sqrt s u v i⟩
  rw [mix_eq_ofFn]
  exact List.length_ofFn _

/-- Claim C8, evaluated on the code: with the source on speaker 0 of a constructed Desktop
layout, `dist` of channel 0 is never assigned; when it holds `-1` the gain returned for
channel 0 is `-2 · 10^(-decay/20)`, which is negative. -/
theorem mix_on_speaker_negative_gain {Q : Type} (g : Gfx ℝ Q) (mem : SpeakerLayout ℝ 2)
    (d : ℝ) :
    (mix Real.sqrt (construct Real.rpow g Layout.Desktop mem d) ⟨0, fun _ => -1⟩
        ⟨-1, 0, 0⟩)[0]? = some (-(2 * (10 : ℝ) ^ (-d / 20))) ∧
      -(2 * (10 : ℝ) ^ (-d / 20)) < 0 := by
  constructor
  · have h := mix_entry Real.sqrt (construct Real.rpow g Layout.Desktop mem d)
      ⟨0, fun _ => -1⟩ ⟨-1, 0, 0⟩ (0 : Fin 2)
    rw [show ((0 : Fin 2) : Nat) = 0 from rfl] at h
    rw [h, gainSpec_on_speaker _ (construct_desktop_pos0 _ _ _ _)
      (construct_desktop_pos1 _ _ _ _), construct_desktop_RollOff]
    rfl
  · have hpos : (0 : ℝ) < (10 : ℝ) ^ (-d / 20) := Real.rpow_pos_of_pos (by norm_num) _
    linarith

/-- Claim C9, evaluated on the code: `sum` is read before it is ever assigned.  On the
Desktop layout constructed with decay 0 (rolloff 1), a source at the origin and `sum`
holding `2` beforehand, `mix` returns `1/2` on both channels, which is not
`rolloff / sqrt 2`. -/
theorem mix_origin_leftover_sum {Q : Type} (g : Gfx ℝ Q) (mem : SpeakerLayout ℝ 2)
    (dist : Nat → ℝ) :
    mix Real.sqrt (construct Real.rpow g Layout.Desktop mem 0) ⟨2, dist⟩ ⟨0, 0, 0⟩ =
        [1 / 2, 1 / 2] ∧
      (construct Real.rpow g Layout.Desktop mem 0).RollOff / Real.sqrt 2 ≠ 1 / 2 := by
  have hR : (construct Real.rpow g Layout.Desktop mem 0).RollOff = 1 := by
    rw [construct_desktop_RollOff]
    simp
  constructor
  · rw [mix_eq_ofFn]
    have hg : ∀ i : Fin 2, gainSpec Real.sqrt
        (construct Real.rpow g Layout.Desktop mem 0) ⟨2, dist⟩ ⟨0, 0, 0⟩ i = 1 / 2 := by
      intro i
      rw [gainSpec_origin _ _ (construct_desktop_pos0 _ _ _ _)
        (construct_desktop_pos1 _ _ _ _), hR]
      norm_num [sqrt_four]
    show List.ofFn (fun i : Fin 2 => gainSpec Real.sqrt
        (construct Real.rpow g Layout.Desktop mem 0) ⟨2, dist⟩ ⟨0, 0, 0⟩ i) = _
    simp only [hg]
    rfl
  · rw [hR]
    intro h
    have h2 : Real.sqrt 2 = 2 := by
      rw [one_div, one_div] at h
      exact inv_inj.mp h
    have h3 : Real.sqrt 2 ^ 2 = 2 := Real.sq_sqrt (by norm_num)
    rw [h2] at h3
    norm_num at h3

/-- Claim C10: constructing the Desktop layout (`N = 2`) with any decay value, over any
storage, places speaker 0 at `(-1,0,0)` and speaker 1 at `(1,0,0)`. -/
theorem construct_desktop_positions [Field α] {Q : Type} (pow : α → α → α) (g : Gfx α Q)
    (mem : SpeakerLayout α 2) (r : α) :
    (construct pow g Layout.Desktop mem r).pos 0 = ⟨-1, 0, 0⟩ ∧
      (construct pow g Layout.Desktop mem r).pos 1 = ⟨1, 0, 0⟩ :=
  ⟨construct_desktop_pos0 pow g mem r, construct_desktop_pos1 pow g mem r⟩

/-! ## Rolloff, opposite channel and gains: helper lemmas -/

/-- A ring of the allosphere `init` leaves the rolloff alone. -/
theorem ring_RollOff [Field α] {Q : Type} (g : Gfx α Q) (rv : Vec3 α) (den : α)
    (lo hi : Nat) (s : SpeakerLayout α N) : (ring g rv den lo hi s).RollOff = s.RollOff := by
  unfold ring
  generalize (0 : Nat) = ix
  generalize List.Ico lo hi = l
  induction l generalizing s ix with
  | nil => rfl
  | cons i l ih =>
    rw [List.foldl_cons, ih]
    exact setPos_RollOff _ _ _

/-- Rolloff of a constructed layout, Desktop or Sphere. -/
theorem construct_RollOff [Field α] {Q : Type} (pow : α → α → α) (g : Gfx α Q) (L : Layout)
    (mem : SpeakerLayout α L.N) (r : α) :
    (construct pow g L mem r).RollOff = pow 10 (-r / 20) := by
  cases L with
  | Desktop => exact construct_desktop_RollOff pow g mem r
  | Allo =>
    show (initAllo g (calcRolloff pow mem r)).RollOff = _
    unfold initAllo
    simp only [ring_RollOff]
    rfl

/-- For a channel inside an even ring, `opp` is the mathematical remainder. -/
theorem opp_eq_emod (N : Nat) (ch : Int) (h0 : 0 ≤ ch) :
    opp N ch = (ch + (N : Int) / 2) % (N : Int) := by
  unfold opp
  rw [doubleToInt_half]
  exact move_eq_emod N ch _ (by omega)

/-- The vector returned by `mix` on a two-channel layout. -/
theorem mix_two [Field α] [DecidableEq α] (sqrt : α → α) (s : SpeakerLayout α 2)
    (u : Indeterminate α) (v : Vec3 α) :
    mix sqrt s u v = [gainSpec sqrt s u v 0, gainSpec sqrt s u v 1] := by
  rw [mix_eq_ofFn]
  rfl

/-- The accumulated `sum` after the first loop of `mix`. -/
theorem mixLoop_snd [Field α] [DecidableEq α] (sqrt : α → α) (s : SpeakerLayout α N)
    (u : Indeterminate α) (v : Vec3 α) :
    (mixLoop sqrt s u v).2 = u.sum + ∑ j, invSq s v j := by
  unfold mixLoop
  rw [foldl_mixPass, Fin.sum_univ_def]

/-- Away from a speaker the term `invSq` is positive. -/
theorem invSq_pos (s : SpeakerLayout ℝ N) (v : Vec3 ℝ) (j : Fin N) (h : s.pos j ≠ v) :
    0 < invSq s v j := by
  have hne : ((s.pos j).sub v).sq ≠ 0 := fun e => h ((sq_sub_eq_zero_iff _ _).mp e)
  have hpos : 0 < ((s.pos j).sub v).sq := lt_of_le_of_ne (sq_nonneg_real _) (Ne.symm hne)
  simp only [invSq, hne, if_false]
  positivity

/-- The term `invSq` is never negative. -/
theorem invSq_nonneg (s : SpeakerLayout ℝ N) (v : Vec3 ℝ) (j : Fin N) :
    0 ≤ invSq s v j := by
  unfold invSq
  split
  · exact le_refl 0
  · have := sq_nonneg_real ((s.pos j).sub v)
    positivity

/-- Away from a speaker the raw contribution `dist` is positive. -/
theorem rawDist_pos (s : SpeakerLayout ℝ N) (u : Indeterminate ℝ) (v : Vec3 ℝ) (j : Fin N)
    (h : s.pos j ≠ v) : 0 < rawDist Real.sqrt s u v j := by
  have hne : ((s.pos j).sub v).sq ≠ 0 := fun e => h ((sq_sub_eq_zero_iff _ _).mp e)
  have hpos : 0 < ((s.pos j).sub v).sq := lt_of_le_of_ne (sq_nonneg_real _) (Ne.symm hne)
  simp only [rawDist, hne, if_false]
  have := Real.sqrt_pos.mpr hpos
  positivity

/-- Away from a speaker the square of `dist` is the term `invSq`. -/
theorem rawDist_sq (s : SpeakerLayout ℝ N) (u : Indeterminate ℝ) (v : Vec3 ℝ) (j : Fin N)
    (h : s.pos j ≠ v) : rawDist Real.sqrt s u v j ^ 2 = invSq s v j := by
  have hne : ((s.pos j).sub v).sq ≠ 0 := fun e => h ((sq_sub_eq_zero_iff _ _).mp e)
  simp only [rawDist, invSq, hne, if_false]
  rw [div_pow, one_pow, Real.sq_sqrt (sq_nonneg_real _)]

/-- Gains of a stereo pair at (∓1,0,0) for a source on speaker 0 and the sum started at
zero: channel 0 gets the unset `dist` times `2 · RollOff`, channel 1 gets `RollOff`. -/
theorem gainSpec_on_speaker0 (s : SpeakerLayout ℝ 2) (u : Indeterminate ℝ)
    (hsum : u.sum = 0) (h0 : s.pos 0 = ⟨-1, 0, 0⟩) (h1 : s.pos 1 = ⟨1, 0, 0⟩) :
    gainSpec Real.sqrt s u ⟨-1, 0, 0⟩ 0 = u.dist 0 * (2 * s.RollOff) ∧
      gainSpec Real.sqrt s u ⟨-1, 0, 0⟩ 1 = s.RollOff := by
  have hs : ∑ j : Fin 2, invSq s ⟨-1, 0, 0⟩ j = 1 / 4 := by
    simp only [invSq, Fin.sum_univ_two, h0, h1, Vec3.sub, Vec3.sq]
    norm_num
  have hd0 : rawDist Real.sqrt s u ⟨-1, 0, 0⟩ 0 = u.dist 0 := by
    simp only [rawDist, h0, Vec3.sub, Vec3.sq]
    norm_num
  have hd1 : rawDist Real.sqrt s u ⟨-1, 0, 0⟩ 1 = 1 / 2 := by
    simp only [rawDist, h1, Vec3.sub, Vec3.sq]
    norm_num [sqrt_four]
  constructor
  · rw [gainSpec, hs, hd0, hsum, zero_add, sqrt_quarter]
    ring
  · rw [gainSpec, hs, hd1, hsum, zero_add, sqrt_quarter]
    ring

/-- With a positive rolloff and a positive accumulated sum, of two speakers away from the
source the nearer one gets the larger gain, and equally distant ones get equal gains. -/
theorem gainSpec_near_dominates (s : SpeakerLayout ℝ N) (u : Indeterminate ℝ) (v : Vec3 ℝ)
    (hR : 0 < s.RollOff) (htot : 0 < u.sum + ∑ j, invSq s v j) (i j : Fin N)
    (hi : s.pos i ≠ v) (hj : s.pos j ≠ v) :
    (((s.pos i).sub v).sq < ((s.pos j).sub v).sq →
        gainSpec Real.sqrt s u v j < gainSpec Real.sqrt s u v i) ∧
      (((s.pos i).sub v).sq = ((s.pos j).sub v).sq →
        gainSpec Real.sqrt s u v i = gainSpec Real.sqrt s u v j) := by
  have hni : ((s.pos i).sub v).sq ≠ 0 := fun e => hi ((sq_sub_eq_zero_iff _ _).mp e)
  have hnj : ((s.pos j).sub v).sq ≠ 0 := fun e => hj ((sq_sub_eq_zero_iff _ _).mp e)
  have hpi : 0 < ((s.pos i).sub v).sq := lt_of_le_of_ne (sq_nonneg_real _) (Ne.symm hni)
  have hk : 0 < s.RollOff / Real.sqrt (u.sum + ∑ j, invSq s v j) :=
    div_pos hR (Real.sqrt_pos.mpr htot)
  constructor
  · intro hlt
    simp only [gainSpec, rawDist, hni, hnj, if_false]
    apply mul_lt_mul_of_pos_right _ hk
    have h1 : Real.sqrt ((s.pos i).sub v).sq < Real.sqrt ((s.pos j).sub v).sq :=
      Real.sqrt_lt_sqrt (le_of_lt hpi) hlt
    exact one_div_lt_one_div_of_lt (Real.sqrt_pos.mpr hpi) h1
  · intro heq
    simp only [gainSpec, rawDist, hni, hnj, if_false, heq]

/-- The guard of the first loop keeps its two divisions away from zero. -/
theorem passDivisors_ne_zero (s : SpeakerLayout ℝ N) (v : Vec3 ℝ) (i : Fin N) (d : ℝ)
    (hd : d ∈ passDivisors Real.sqrt s v i) : d ≠ 0 := by
  unfold passDivisors at hd
  by_cases h : ((s.pos i).sub v).sq = 0
  · simp [h] at hd
  · have hpos : 0 < ((s.pos i).sub v).sq := lt_of_le_of_ne (sq_nonneg_real _) (Ne.symm h)
    simp only [h, decide_False, if_true, List.mem_cons, List.mem_singleton,
      List.not_mem_nil, or_false] at hd
    rcases hd with hd | hd
    · rw [hd]
      exact h
    · rw [hd]
      exact ne_of_gt (Real.sqrt_pos.mpr hpos)

/-- On a stereo pair at (∓1,0,0), with the running sum started at zero, no division of
`mix` has a zero divisor, wherever the source is. -/
theorem mixDivisors_ne_zero_of_zero_sum (s : SpeakerLayout ℝ 2) (u : Indeterminate ℝ)
    (v : Vec3 ℝ) (hsum : u.sum = 0) (h0 : s.pos 0 = ⟨-1, 0, 0⟩) (h1 : s.pos 1 = ⟨1, 0, 0⟩)
    (d : ℝ) (hd : d ∈ mixDivisors Real.sqrt s u v) : d ≠ 0 := by
  unfold mixDivisors at hd
  rw [List.mem_append, List.mem_flatMap, List.mem_singleton] at hd
  rcases hd with ⟨i, _, hi⟩ | hd
  · exact passDivisors_ne_zero s v i d hi
  · rw [hd, mixLoop_snd, hsum, zero_add]
    apply ne_of_gt
    apply Real.sqrt_pos.mpr
    have hne : s.pos 0 ≠ v ∨ s.pos 1 ≠ v := by
      by_contra hc
      push_neg at hc
      have : s.pos 0 = s.pos 1 := hc.1.trans hc.2.symm
      rw [h0, h1] at this
      simp only [Vec3.mk.injEq] at this
      norm_num at this
    rw [Fin.sum_univ_two]
    rcases hne with hne | hne
    · have := invSq_pos s v 0 hne
      have := invSq_nonneg s v 1
      linarith
    · have := invSq_pos s v 1 hne
      have := invSq_nonneg s v 0
      linarith

/-! ## Sphere placement: helper lemmas -/

/-- The loop of a ring leaves alone every slot whose index it does not run over. -/
theorem ringFold_outside [Field α] {Q : Type} (g : Gfx α Q) (rv : Vec3 α) (den : α)
    (l : List Nat) (st : SpeakerLayout α N × Nat) (j : Fin N) (h : ∀ i ∈ l, i ≠ (j : Nat)) :
    (l.foldl
      (fun (st : SpeakerLayout α N × Nat) (i : Nat) =>
        let t : α := 1 * (st.2 : α) / den
        let q := g.quat (g.PI * t) ⟨0, 1, 0⟩
        (setPos st.1 i (g.spin rv q), st.2 + 1)) st).1.pos j = st.1.pos j := by
  induction l generalizing st with
  | nil => rfl
  | cons a l ih =>
    rw [List.foldl_cons, ih _ (fun i hi => h i (List.mem_cons_of_mem a hi))]
    exact setPos_pos_other _ a j _ (fun e => h a (List.mem_cons_self a l) e.symm)

/-- The loop of a ring over `[lo, hi)`, entered with counter `ix`, writes into slot `j` of
that range the reference vector spun by the angle `PI * (1 * (ix + (j - lo)) / den)`. -/
theorem ringFold_inside [Field α] {Q : Type} (g : Gfx α Q) (rv : Vec3 α) (den : α)
    (n lo hi : Nat) (hn : hi - lo = n) (st : SpeakerLayout α N × Nat) (j : Fin N)
    (h1 : lo ≤ (j : Nat)) (h2 : (j : Nat) < hi) :
    ((List.Ico lo hi).foldl
      (fun (st : SpeakerLayout α N × Nat) (i : Nat) =>
        let t : α := 1 * (st.2 : α) / den
        let q := g.quat (g.PI * t) ⟨0, 1, 0⟩
        (setPos st.1 i (g.spin rv q), st.2 + 1)) st).1.pos j =
      g.spin rv (g.quat (g.PI * (1 * ((st.2 + ((j : Nat) - lo) : Nat) : α) / den)) ⟨0, 1, 0⟩) := by
  induction n generalizing lo st with
  | zero => omega
  | succ n ih =>
    have hlt : lo < hi := by omega
    rw [List.Ico.eq_cons hlt, List.foldl_cons]
    by_cases hj : (j : Nat) = lo
    · rw [ringFold_outside g rv den _ _ j (fun i hi => by
        rw [List.Ico.mem] at hi
        omega)]
      have hjN : lo < N := by
        rw [← hj]
        exact j.isLt
      have hjeq : j = ⟨lo, hjN⟩ := Fin.ext hj
      rw [hjeq]
      simp only [Nat.sub_self, Nat.add_zero]
      exact setPos_pos_same _ ⟨lo, hjN⟩ _
    · rw [ih (lo + 1) (by omega) _ (by omega)]
      have e : st.2 + 1 + ((j : Nat) - (lo + 1)) = st.2 + ((j : Nat) - lo) := by omega
      simp only [e]

/-- A ring leaves alone every slot outside `[lo, hi)`. -/
theorem ring_pos_outside [Field α] {Q : Type} (g : Gfx α Q) (rv : Vec3 α) (den : α)
    (lo hi : Nat) (s : SpeakerLayout α N) (j : Fin N) (h : (j : Nat) < lo ∨ hi ≤ (j : Nat)) :
    (ring g rv den lo hi s).pos j = s.pos j := by
  unfold ring
  exact ringFold_outside g rv den _ (s, 0) j (fun i hi => by
    rw [List.Ico.mem] at hi
    omega)

/-- A ring writes into slot `j` of `[lo, hi)` the reference vector spun about the vertical
axis by the angle `PI * (1 * (j - lo) / den)`. -/
theorem ring_pos_inside [Field α] {Q : Type} (g : Gfx α Q) (rv : Vec3 α) (den : α)
    (lo hi : Nat) (s : SpeakerLayout α N) (j : Fin N) (h1 : lo ≤ (j : Nat))
    (h2 : (j : Nat) < hi) :
    (ring g rv den lo hi s).pos j =
      g.spin rv (g.quat (g.PI * (1 * ((((j : Nat) - lo : Nat)) : α) / den)) ⟨0, 1, 0⟩) := by
  unfold ring
  rw [ringFold_inside g rv den (hi - lo) lo hi rfl (s, 0) j h1 h2]
  simp only [Nat.zero_add]

/-- The Sphere `init` leaves the slots `[12,16)` and `[46,48)` as they were. -/
theorem initAllo_pos_gap [Field α] {Q : Type} (g : Gfx α Q) (s : SpeakerLayout α 60)
    (i : Fin 60)
    (hi : (12 ≤ (i : Nat) ∧ (i : Nat) < 16) ∨ (46 ≤ (i : Nat) ∧ (i : Nat) < 48)) :
    (initAllo g s).pos i = s.pos i := by
  unfold initAllo
  simp only
  rw [ring_pos_outside _ _ _ 48 60 _ i (by omega), ring_pos_outside _ _ _ 16 46 _ i (by omega),
    ring_pos_outside _ _ _ 0 12 _ i (by omega)]

/-- The Sphere `init` writes the slots `[0,12)`, `[16,46)` and `[48,60)`: each gets a
reference vector spun about the vertical axis, whatever the slot held before. -/
theorem initAllo_pos_ring [Field α] {Q : Type} (g : Gfx α Q) (s : SpeakerLayout α 60)
    (i : Fin 60) :
    ((i : Nat) < 12 → (initAllo g s).pos i =
        g.spin (g.spin ⟨-1, 0, 0⟩ (g.quat (g.PIOVERFOUR / 2) ⟨0, 0, -1⟩))
          (g.quat (g.PI * (1 * ((((i : Nat) - 0 : Nat)) : α) / 12)) ⟨0, 1, 0⟩)) ∧
      (16 ≤ (i : Nat) → (i : Nat) < 46 → (initAllo g s).pos i =
        g.spin ⟨-1, 0, 0⟩
          (g.quat (g.PI * (1 * ((((i : Nat) - 16 : Nat)) : α) / 20)) ⟨0, 1, 0⟩)) ∧
      (48 ≤ (i : Nat) → (initAllo g s).pos i =
        g.spin (g.spin ⟨-1, 0, 0⟩ (g.quat (-g.PIOVERFOUR / 2) ⟨0, 0, -1⟩))
          (g.quat (g.PI * (1 * ((((i : Nat) - 48 : Nat)) : α) / 12)) ⟨0, 1, 0⟩)) := by
  have hi60 : (i : Nat) < 60 := i.isLt
  refine ⟨fun h => ?_, fun h1 h2 => ?_, fun h => ?_⟩
  · unfold initAllo
    simp only
    rw [ring_pos_outside _ _ _ 48 60 _ i (by omega),
      ring_pos_outside _ _ _ 16 46 _ i (by omega),
      ring_pos_inside _ _ _ 0 12 _ i (by omega) h]
  · unfold initAllo
    simp only
    rw [ring_pos_outside _ _ _ 48 60 _ i (by omega), ring_pos_inside _ _ _ 16 46 _ i h1 h2]
  · unfold initAllo
    simp only
    rw [ring_pos_inside _ _ _ 48 60 _ i h hi60]

/-- The squared norm of a product of quaternions is the product of the squared norms. -/
theorem normSq_mul (a b : Quat ℝ) : (Quat.mul a b).normSq = a.normSq * b.normSq := by
  simp only [Quat.mul, Quat.normSq]
  ring

/-- The conjugation `q v q̄` of a pure quaternion has no scalar part. -/
theorem conj_scalar_part (v : Vec3 ℝ) (q : Quat ℝ) :
    (Quat.mul (Quat.mul q ⟨0, v.x, v.y, v.z⟩) ⟨q.w, -q.x, -q.y, -q.z⟩).w = 0 := by
  simp only [Quat.mul]
  ring

/-- Squared magnitude of `q v q̄`: the squared norm of `q`, squared, times that of `v`. -/
theorem conj_sq (v : Vec3 ℝ) (q : Quat ℝ) (r : Quat ℝ)
    (hr : r = Quat.mul (Quat.mul q ⟨0, v.x, v.y, v.z⟩) ⟨q.w, -q.x, -q.y, -q.z⟩) :
    r.x * r.x + r.y * r.y + r.z * r.z = q.normSq * q.normSq * v.sq := by
  have hn : r.normSq = q.normSq * (v.x * v.x + v.y * v.y + v.z * v.z) * q.normSq := by
    rw [hr, normSq_mul, normSq_mul]
    simp only [Quat.normSq]
    ring
  have hw : r.w = 0 := by
    rw [hr]
    exact conj_scalar_part v q
  have hsplit : r.normSq = r.w * r.w + (r.x * r.x + r.y * r.y + r.z * r.z) := by
    simp only [Quat.normSq]
    ring
  rw [hsplit, hw] at hn
  simp only [Vec3.sq]
  linarith

/-- Conjugation by a quaternion of non-zero norm keeps the squared magnitude. -/
theorem spin_sq (v : Vec3 ℝ) (q : Quat ℝ) (hq : q.normSq ≠ 0) :
    (Quat.spin v q).sq = v.sq := by
  obtain ⟨r, hr⟩ : ∃ r : Quat ℝ,
      r = Quat.mul (Quat.mul q ⟨0, v.x, v.y, v.z⟩) ⟨q.w, -q.x, -q.y, -q.z⟩ := ⟨_, rfl⟩
  have hc := conj_sq v q r hr
  have hx : (Quat.spin v q).x = r.x / q.normSq := by
    rw [hr]
    simp only [Quat.spin, Quat.mul, Quat.inv]
    ring
  have hy : (Quat.spin v q).y = r.y / q.normSq := by
    rw [hr]
    simp only [Quat.spin, Quat.mul, Quat.inv]
    ring
  have hz : (Quat.spin v q).z = r.z / q.normSq := by
    rw [hr]
    simp only [Quat.spin, Quat.mul, Quat.inv]
    ring
  have hsq : (Quat.spin v q).sq =
      (r.x * r.x + r.y * r.y + r.z * r.z) / (q.normSq * q.normSq) := by
    rw [Vec3.sq, hx, hy, hz]
    ring
  rw [hsq, hc]
  exact mul_div_cancel_left₀ _ (mul_ne_zero hq hq)

/-- The axis-angle quaternion of a unit axis has norm one. -/
theorem axisAngle_normSq (a : ℝ) (v : Vec3 ℝ) (hv : v.sq = 1) :
    (Quat.axisAngle Real.cos Real.sin a v).normSq = 1 := by
  have h := Real.cos_sq_add_sin_sq (a / 2)
  unfold Vec3.sq at hv
  simp only [Quat.axisAngle, Quat.normSq]
  nlinarith [h, hv]

/-- In the modelled gfx library, spinning about a unit axis keeps the squared magnitude. -/
theorem gfxModel_spin_sq (pi a : ℝ) (v axis : Vec3 ℝ) (haxis : axis.sq = 1) :
    ((gfxModel Real.cos Real.sin pi).spin v
      ((gfxModel Real.cos Real.sin pi).quat a axis)).sq = v.sq := by
  show (Quat.spin v (Quat.axisAngle Real.cos Real.sin a axis)).sq = v.sq
  apply spin_sq
  rw [axisAngle_normSq a axis haxis]
  exact one_ne_zero

/-- In the modelled gfx library every slot the Sphere `init` writes has squared
magnitude one. -/
theorem initAllo_written_sq (pi : ℝ) (s : SpeakerLayout ℝ 60) (i : Fin 60)
    (hi : (i : Nat) < 12 ∨ (16 ≤ (i : Nat) ∧ (i : Nat) < 46) ∨ 48 ≤ (i : Nat)) :
    ((initAllo (gfxModel Real.cos Real.sin pi) s).pos i).sq = 1 := by
  have hy : (⟨0, 1, 0⟩ : Vec3 ℝ).sq = 1 := by norm_num [Vec3.sq]
  have hz : (⟨0, 0, -1⟩ : Vec3 ℝ).sq = 1 := by norm_num [Vec3.sq]
  have hmv : (⟨-1, 0, 0⟩ : Vec3 ℝ).sq = 1 := by norm_num [Vec3.sq]
  have h := initAllo_pos_ring (gfxModel Real.cos Real.sin pi) s i
  rcases hi with hi | ⟨h1, h2⟩ | hi
  · rw [h.1 hi, gfxModel_spin_sq _ _ _ _ hy, gfxModel_spin_sq _ _ _ _ hz, hmv]
  · rw [h.2.1 h1 h2, gfxModel_spin_sq _ _ _ _ hy, hmv]
  · rw [h.2.2 hi, gfxModel_spin_sq _ _ _ _ hy, gfxModel_spin_sq _ _ _ _ hz, hmv]

/-! ## Moving along a ray: helper lemmas -/

/-- The accessor `gain` reads the closed form `gainSpec`. -/
theorem gain_eq_gainSpec [Field α] [DecidableEq α] (sqrt : α → α) (s : SpeakerLayout α N)
    (u : Indeterminate α) (v : Vec3 α) (i : Fin N) :
    gain sqrt s u v i = gainSpec sqrt s u v i := by
  unfold gain
  rw [List.getD_eq_getElem?_getD, mix_entry]
  rfl

/-- Squared distance from a point `a` to the point at parameter `t` of a ray from `p`. -/
theorem sq_sub_alongRay (a p w : Vec3 ℝ) (t : ℝ) :
    (a.sub (Vec3.alongRay p w t)).sq =
      (a.sub p).sq - 2 * t * w.dot (a.sub p) + t ^ 2 * w.sq := by
  simp only [Vec3.sub, Vec3.sq, Vec3.alongRay, Vec3.dot]
  ring

/-- Along a ray the ratio `t² / mag_j(t)` does not decrease as long as `t·b ≤ c`, where
`mag_j(t) = c - 2·t·b + t²`. -/
theorem ratio_mono (t1 t2 b c : ℝ) (ht1 : 0 < t1) (ht : t1 < t2) (hc : 0 ≤ c)
    (hb : t2 * b ≤ c) (hm1 : 0 < c - 2 * t1 * b + t1 ^ 2)
    (hm2 : 0 < c - 2 * t2 * b + t2 ^ 2) :
    t1 ^ 2 / (c - 2 * t1 * b + t1 ^ 2) ≤ t2 ^ 2 / (c - 2 * t2 * b + t2 ^ 2) := by
  rw [div_le_div_iff₀ hm1 hm2]
  have ht2 : 0 < t2 := lt_trans ht1 ht
  have key : 2 * t1 * t2 * b ≤ (t1 + t2) * c := by
    by_cases hneg : b ≤ 0
    · have h1 : 2 * t1 * t2 * b ≤ 0 :=
        mul_nonpos_of_nonneg_of_nonpos (by positivity) hneg
      have h2 : 0 ≤ (t1 + t2) * c := by positivity
      linarith
    · push_neg at hneg
      have h1 : t1 * b ≤ c := le_trans (le_of_lt (mul_lt_mul_of_pos_right ht hneg)) hb
      have h2 : t1 * (t2 * b) ≤ t1 * c := mul_le_mul_of_nonneg_left hb (le_of_lt ht1)
      have h3 : t2 * (t1 * b) ≤ t2 * c := mul_le_mul_of_nonneg_left h1 (le_of_lt ht2)
      nlinarith [h2, h3]
  have hd : 0 < t2 - t1 := by linarith
  nlinarith [mul_nonneg (le_of_lt hd) (sub_nonneg.mpr key)]

/-- Square root of 64. -/
theorem sqrt_64 : Real.sqrt 64 = 8 := by
  rw [show (64 : ℝ) = 8 ^ 2 by norm_num]
  exact Real.sqrt_sq (by norm_num)

/-- Square root of 1764. -/
theorem sqrt_1764 : Real.sqrt 1764 = 42 := by
  rw [show (1764 : ℝ) = 42 ^ 2 by norm_num]
  exact Real.sqrt_sq (by norm_num)

/-- Square root of 25/576. -/
theorem sqrt_25_576 : Real.sqrt (25 / 576) = 5 / 24 := by
  rw [show (25 / 576 : ℝ) = (5 / 24) ^ 2 by norm_num]
  exact Real.sqrt_sq (by norm_num)

/-- Square root of 841/705600. -/
theorem sqrt_841_705600 : Real.sqrt (841 / 705600) = 29 / 840 := by
  rw [show (841 / 705600 : ℝ) = (29 / 840) ^ 2 by norm_num]
  exact Real.sqrt_sq (by norm_num)

/-- Gain of channel 0 of a stereo pair at (∓1,0,0) with rolloff 1 for the sources
`(7,0,0)` and `(41,0,0)`, at distances 8 and 42 from speaker 0 on the ray through
speaker 1: `3/5` and `20/29`, the sum started at zero. -/
theorem gainSpec_stereo_ray (s : SpeakerLayout ℝ 2) (u : Indeterminate ℝ) (hsum : u.sum = 0)
    (hR : s.RollOff = 1) (h0 : s.pos 0 = ⟨-1, 0, 0⟩) (h1 : s.pos 1 = ⟨1, 0, 0⟩) :
    gainSpec Real.sqrt s u ⟨7, 0, 0⟩ 0 = 3 / 5 ∧
      gainSpec Real.sqrt s u ⟨41, 0, 0⟩ 0 = 20 / 29 := by
  have hs7 : ∑ j : Fin 2, invSq s ⟨7, 0, 0⟩ j = 25 / 576 := by
    simp only [invSq, Fin.sum_univ_two, h0, h1, Vec3.sub, Vec3.sq]
    norm_num
  have hd7 : rawDist Real.sqrt s u ⟨7, 0, 0⟩ 0 = 1 / 8 := by
    simp only [rawDist, h0, Vec3.sub, Vec3.sq]
    norm_num [sqrt_64]
  have hs41 : ∑ j : Fin 2, invSq s ⟨41, 0, 0⟩ j = 841 / 705600 := by
    simp only [invSq, Fin.sum_univ_two, h0, h1, Vec3.sub, Vec3.sq]
    norm_num
  have hd41 : rawDist Real.sqrt s u ⟨41, 0, 0⟩ 0 = 1 / 42 := by
    simp only [rawDist, h0, Vec3.sub, Vec3.sq]
    norm_num [sqrt_1764]
  constructor
  · rw [gainSpec, hs7, hd7, hsum, zero_add, sqrt_25_576, hR]
    norm_num
  · rw [gainSpec, hs41, hd41, hsum, zero_add, sqrt_841_705600, hR]
    norm_num

/-- With the sum started at zero, a positive rolloff and a unit direction, the gain of
channel `i` for a source at distance `t > 0` on a ray from speaker `i` is
`RollOff / sqrt(Σ_j t² / mag_j)`. -/
theorem gainSpec_on_ray (s : SpeakerLayout ℝ N) (u : Indeterminate ℝ) (i : Fin N)
    (w : Vec3 ℝ) (t : ℝ) (hsum : u.sum = 0) (hw : w.sq = 1) (ht : 0 < t) :
    gainSpec Real.sqrt s u (Vec3.alongRay (s.pos i) w t) i =
      s.RollOff / Real.sqrt (∑ j, t ^ 2 * invSq s (Vec3.alongRay (s.pos i) w t) j) := by
  have hmag : ((s.pos i).sub (Vec3.alongRay (s.pos i) w t)).sq = t ^ 2 := by
    rw [sq_sub_alongRay, hw]
    simp only [Vec3.sub, Vec3.sq, Vec3.dot]
    ring
  have hne : ((s.pos i).sub (Vec3.alongRay (s.pos i) w t)).sq ≠ 0 := by
    rw [hmag]
    positivity
  have hd : rawDist Real.sqrt s u (Vec3.alongRay (s.pos i) w t) i = 1 / t := by
    simp only [rawDist, hne, if_false]
    rw [hmag, Real.sqrt_sq (le_of_lt ht)]
  rw [gainSpec, hd, hsum, zero_add, ← Finset.mul_sum,
    Real.sqrt_mul (by positivity) _, Real.sqrt_sq (le_of_lt ht)]
  field_simp

/-- When the unset locals hold the same content in the calls compared: for fixed speaker
positions and a fixed source on no speaker, the gain vector is the rolloff times the gain
vector computed with rolloff 1, and for decay values `d1 ≤ d2` every gain under `d2` is at
most the gain of the same channel under `d1`. -/
theorem mix_scales_same_leftover (N : Nat) (s : SpeakerLayout ℝ N) (u : Indeterminate ℝ)
    (v : Vec3 ℝ) (hv : ∀ j : Fin N, s.pos j ≠ v) (d1 d2 : ℝ) (h : d1 ≤ d2) :
    mix Real.sqrt s u v =
        (mix Real.sqrt { s with RollOff := 1 } u v).map (fun x => s.RollOff * x) ∧
      List.Forall₂ (fun a b => a ≤ b) (mix Real.sqrt (calcRolloff Real.rpow s d2) u v)
        (mix Real.sqrt (calcRolloff Real.rpow s d1) u v) := by
  constructor
  · rw [mix_eq_ofFn, mix_eq_ofFn, List.map_ofFn]
    congr 1
    funext i
    show rawDist Real.sqrt s u v i * (s.RollOff / Real.sqrt (u.sum + ∑ j, invSq s v j)) =
      s.RollOff * (rawDist Real.sqrt s u v i * (1 / Real.sqrt (u.sum + ∑ j, invSq s v j)))
    ring
  · rw [mix_eq_ofFn, mix_eq_ofFn, List.ofFn_eq_map, List.ofFn_eq_map,
      List.forall₂_map_left_iff, List.forall₂_map_right_iff, List.forall₂_same]
    intro i _
    show rawDist Real.sqrt s u v i *
        ((10 : ℝ) ^ (-d2 / 20) / Real.sqrt (u.sum + ∑ j, invSq s v j)) ≤
      rawDist Real.sqrt s u v i *
        ((10 : ℝ) ^ (-d1 / 20) / Real.sqrt (u.sum + ∑ j, invSq s v j))
    apply mul_le_mul_of_nonneg_left _ (le_of_lt (rawDist_pos s u v i (hv i)))
    apply div_le_div_of_nonneg_right _ (Real.sqrt_nonneg _)
    rw [Real.rpow_le_rpow_left_iff (by norm_num)]
    linarith

/-- Vector returned by `mix` on a stereo pair at (∓1,0,0) for the source `(3,0,0)`. -/
theorem mix_stereo_at_three (s : SpeakerLayout ℝ 2) (u : Indeterminate ℝ)
    (h0 : s.pos 0 = ⟨-1, 0, 0⟩) (h1 : s.pos 1 = ⟨1, 0, 0⟩) :
    mix Real.sqrt s u ⟨3, 0, 0⟩ =
      [1 / 4 * (s.RollOff / Real.sqrt (u.sum + 5 / 16)),
       1 / 2 * (s.RollOff / Real.sqrt (u.sum + 5 / 16))] := by
  have hs : ∑ j : Fin 2, invSq s ⟨3, 0, 0⟩ j = 5 / 16 := by
    simp only [invSq, Fin.sum_univ_two, h0, h1, Vec3.sub, Vec3.sq]
    norm_num
  have hd0 : rawDist Real.sqrt s u ⟨3, 0, 0⟩ 0 = 1 / 4 := by
    have e : Real.sqrt 16 = 4 := by
      rw [show (16 : ℝ) = 4 ^ 2 by norm_num]
      exact Real.sqrt_sq (by norm_num)
    simp only [rawDist, h0, Vec3.sub, Vec3.sq]
    norm_num [e]
  have hd1 : rawDist Real.sqrt s u ⟨3, 0, 0⟩ 1 = 1 / 2 := by
    simp only [rawDist, h1, Vec3.sub, Vec3.sq]
    norm_num [sqrt_four]
  rw [mix_two, gainSpec, gainSpec, hs, hd0, hd1]

/-! ## The claims, second part -/

/-- Claim C11: construction with decay value `d` (Desktop or Sphere) sets the rolloff to
`10^(-d/20)`, and over the reals this is strictly decreasing in `d`. -/
theorem rolloff_strictly_decreasing {Q : Type} (g : Gfx ℝ Q) (L : Layout)
    (mem1 mem2 : SpeakerLayout ℝ L.N) (d1 d2 : ℝ) (h : d1 < d2) :
    (construct Real.rpow g L mem1 d1).RollOff = (10 : ℝ) ^ (-d1 / 20) ∧
      (construct Real.rpow g L mem2 d2).RollOff = (10 : ℝ) ^ (-d2 / 20) ∧
      (construct Real.rpow g L mem2 d2).RollOff < (construct Real.rpow g L mem1 d1).RollOff := by
  rw [construct_RollOff, construct_RollOff]
  refine ⟨rfl, rfl, ?_⟩
  show (10 : ℝ) ^ (-d2 / 20) < (10 : ℝ) ^ (-d1 / 20)
  rw [Real.rpow_lt_rpow_left_iff (by norm_num)]
  linarith

/-- Witness of C11: the Sphere layout in zero-filled storage, decay 3 against decay 6. -/
theorem rolloff_strictly_decreasing_witness :
    (3 : ℝ) < 6 ∧
      (construct Real.rpow (⟨0, 0, fun _ _ => (), fun v _ => v⟩ : Gfx ℝ Unit) Layout.Allo
        (zeroed ℝ 60) 6).RollOff <
      (construct Real.rpow (⟨0, 0, fun _ _ => (), fun v _ => v⟩ : Gfx ℝ Unit) Layout.Allo
        (zeroed ℝ 60) 3).RollOff :=
  ⟨by norm_num, (rolloff_strictly_decreasing _ Layout.Allo (zeroed ℝ 60) (zeroed ℝ 60) 3 6
    (by norm_num)).2.2⟩

/-- Claim C12, evaluated on the code: `sum` is read before it is ever assigned, and each
call of `mix` reads its own leftover.  On the Desktop layout with the source at `(3,0,0)`:
with decay 0 in both calls, `sum` holding `59/16` gives `[1/8, 1/4]` and `sum` holding
`11/16` gives `[1/4, 1/2]`, so the vector is not the rolloff times one fixed vector; and
decay 20 with `sum` holding `11/16` gives `[1/40, 1/20]`, more on every channel than
decay 0 with `sum` holding `6395/16`, which gives `[1/80, 1/40]`. -/
theorem mix_rolloff_leftover_sum {Q : Type} (g : Gfx ℝ Q) (mem : SpeakerLayout ℝ 2)
    (dist : Nat → ℝ) :
    mix Real.sqrt (construct Real.rpow g Layout.Desktop mem 0) ⟨59 / 16, dist⟩ ⟨3, 0, 0⟩ =
        [1 / 8, 1 / 4] ∧
      mix Real.sqrt (construct Real.rpow g Layout.Desktop mem 0) ⟨11 / 16, dist⟩ ⟨3, 0, 0⟩ =
        [1 / 4, 1 / 2] ∧
      mix Real.sqrt (construct Real.rpow g Layout.Desktop mem 20) ⟨11 / 16, dist⟩ ⟨3, 0, 0⟩ =
        [1 / 40, 1 / 20] ∧
      mix Real.sqrt (construct Real.rpow g Layout.Desktop mem 0) ⟨6395 / 16, dist⟩
        ⟨3, 0, 0⟩ = [1 / 80, 1 / 40] := by
  have hR0 : (construct Real.rpow g Layout.Desktop mem 0).RollOff = 1 := by
    rw [construct_desktop_RollOff]
    simp
  have hR20 : (construct Real.rpow g Layout.Desktop mem 20).RollOff = 1 / 10 := by
    rw [construct_desktop_RollOff]
    show (10 : ℝ) ^ ((-20 : ℝ) / 20) = 1 / 10
    rw [show ((-20 : ℝ) / 20) = -1 by norm_num, Real.rpow_neg_one]
    norm_num
  have e400 : Real.sqrt 400 = 20 := by
    rw [show (400 : ℝ) = 20 ^ 2 by norm_num]
    exact Real.sqrt_sq (by norm_num)
  refine ⟨?_, ?_, ?_, ?_⟩
  · rw [mix_stereo_at_three _ _ (construct_desktop_pos0 _ _ _ _)
      (construct_desktop_pos1 _ _ _ _), hR0]
    norm_num [sqrt_four]
  · rw [mix_stereo_at_three _ _ (construct_desktop_pos0 _ _ _ _)
      (construct_desktop_pos1 _ _ _ _), hR0]
    norm_num
  · rw [mix_stereo_at_three _ _ (construct_desktop_pos0 _ _ _ _)
      (construct_desktop_pos1 _ _ _ _), hR20]
    norm_num
  · rw [mix_stereo_at_three _ _ (construct_desktop_pos0 _ _ _ _)
      (construct_desktop_pos1 _ _ _ _), hR0]
    norm_num [e400]

/-- Claim C13 as stated fails, even with the sum started at zero: on a stereo pair at
(∓1,0,0) with rolloff 1, along the ray from speaker 0 through speaker 1 the gain of
channel 0 is `3/5` at distance 8 and `20/29` at distance 42, so it grows as the source
moves away from speaker 0. -/
theorem gain_grows_along_ray :
    ¬ (∀ (N : Nat) (s : SpeakerLayout ℝ N) (d : ℝ) (u1 u2 : Indeterminate ℝ) (i : Fin N)
        (w : Vec3 ℝ) (t1 t2 : ℝ),
        u1.sum = 0 → u2.sum = 0 → w.sq = 1 → 0 < t1 → t1 < t2 →
        (∀ j : Fin N, s.pos j ≠ Vec3.alongRay (s.pos i) w t1) →
        (∀ j : Fin N, s.pos j ≠ Vec3.alongRay (s.pos i) w t2) →
        gain Real.sqrt (calcRolloff Real.rpow s d) u2 (Vec3.alongRay (s.pos i) w t2) i ≤
          gain Real.sqrt (calcRolloff Real.rpow s d) u1 (Vec3.alongRay (s.pos i) w t1) i) := by
  intro h
  have e8 : Vec3.alongRay (⟨-1, 0, 0⟩ : Vec3 ℝ) ⟨1, 0, 0⟩ 8 = ⟨7, 0, 0⟩ := by
    simp only [Vec3.alongRay, Vec3.mk.injEq]
    norm_num
  have e42 : Vec3.alongRay (⟨-1, 0, 0⟩ : Vec3 ℝ) ⟨1, 0, 0⟩ 42 = ⟨41, 0, 0⟩ := by
    simp only [Vec3.alongRay, Vec3.mk.injEq]
    norm_num
  have hc := h 2 ⟨![⟨-1, 0, 0⟩, ⟨1, 0, 0⟩], 1, ![1, 0]⟩ 0 ⟨0, fun _ => 0⟩ ⟨0, fun _ => 0⟩ 0
    ⟨1, 0, 0⟩ 8 42 rfl rfl (by norm_num [Vec3.sq]) (by norm_num) (by norm_num)
    (by
      intro j
      show _ ≠ Vec3.alongRay (⟨-1, 0, 0⟩ : Vec3 ℝ) ⟨1, 0, 0⟩ 8
      rw [e8]
      fin_cases j <;> norm_num)
    (by
      intro j
      show _ ≠ Vec3.alongRay (⟨-1, 0, 0⟩ : Vec3 ℝ) ⟨1, 0, 0⟩ 42
      rw [e42]
      fin_cases j <;> norm_num)
  rw [gain_eq_gainSpec, gain_eq_gainSpec] at hc
  have hv := gainSpec_stereo_ray
    (calcRolloff Real.rpow (⟨![⟨-1, 0, 0⟩, ⟨1, 0, 0⟩], 1, ![1, 0]⟩ : SpeakerLayout ℝ 2) 0)
    ⟨0, fun _ => 0⟩ rfl (by simp [calcRolloff]) rfl rfl
  have hc2 : gainSpec Real.sqrt
      (calcRolloff Real.rpow (⟨![⟨-1, 0, 0⟩, ⟨1, 0, 0⟩], 1, ![1, 0]⟩ : SpeakerLayout ℝ 2) 0)
      ⟨0, fun _ => 0⟩ (Vec3.alongRay (⟨-1, 0, 0⟩ : Vec3 ℝ) ⟨1, 0, 0⟩ 42) 0 ≤
    gainSpec Real.sqrt
      (calcRolloff Real.rpow (⟨![⟨-1, 0, 0⟩, ⟨1, 0, 0⟩], 1, ![1, 0]⟩ : SpeakerLayout ℝ 2) 0)
      ⟨0, fun _ => 0⟩ (Vec3.alongRay (⟨-1, 0, 0⟩ : Vec3 ℝ) ⟨1, 0, 0⟩ 8) 0 := hc
  rw [e8, e42, hv.1, hv.2] at hc2
  norm_num at hc2

/-- Claim C13, amended: with the running sum started at zero, for every layout (any
positions, rolloff from any decay), every speaker `i` and every ray from speaker `i` with
unit direction `w`, if at distance `t2` the source has not passed behind any speaker `j`,
that is `t2 · (w · (pos[j] - pos[i])) ≤ |pos[j] - pos[i]|²`, then for distances
`0 < t1 < t2` on the ray (neither position on a speaker) the gain of channel `i` at `t2` is
at most its gain at `t1`. -/
theorem gain_monotone_along_ray (N : Nat) (s : SpeakerLayout ℝ N) (d : ℝ)
    (u1 u2 : Indeterminate ℝ) (i : Fin N) (w : Vec3 ℝ) (t1 t2 : ℝ)
    (hu1 : u1.sum = 0) (hu2 : u2.sum = 0) (hw : w.sq = 1) (ht1 : 0 < t1) (ht : t1 < t2)
    (hv1 : ∀ j : Fin N, s.pos j ≠ Vec3.alongRay (s.pos i) w t1)
    (hv2 : ∀ j : Fin N, s.pos j ≠ Vec3.alongRay (s.pos i) w t2)
    (hfar : ∀ j : Fin N,
      t2 * w.dot ((s.pos j).sub (s.pos i)) ≤ ((s.pos j).sub (s.pos i)).sq) :
    gain Real.sqrt (calcRolloff Real.rpow s d) u2 (Vec3.alongRay (s.pos i) w t2) i ≤
      gain Real.sqrt (calcRolloff Real.rpow s d) u1 (Vec3.alongRay (s.pos i) w t1) i := by
  have ht2 : 0 < t2 := lt_trans ht1 ht
  have hR : 0 ≤ (calcRolloff Real.rpow s d).RollOff :=
    le_of_lt (Real.rpow_pos_of_pos (by norm_num) _)
  rw [gain_eq_gainSpec, gain_eq_gainSpec]
  have g1 : gainSpec Real.sqrt (calcRolloff Real.rpow s d) u1
      (Vec3.alongRay (s.pos i) w t1) i = (calcRolloff Real.rpow s d).RollOff /
        Real.sqrt (∑ j, t1 ^ 2 * invSq s (Vec3.alongRay (s.pos i) w t1) j) :=
    gainSpec_on_ray (calcRolloff Real.rpow s d) u1 i w t1 hu1 hw ht1
  have g2 : gainSpec Real.sqrt (calcRolloff Real.rpow s d) u2
      (Vec3.alongRay (s.pos i) w t2) i = (calcRolloff Real.rpow s d).RollOff /
        Real.sqrt (∑ j, t2 ^ 2 * invSq s (Vec3.alongRay (s.pos i) w t2) j) :=
    gainSpec_on_ray (calcRolloff Real.rpow s d) u2 i w t2 hu2 hw ht2
  have hterm : ∀ j : Fin N,
      t1 ^ 2 * invSq s (Vec3.alongRay (s.pos i) w t1) j ≤
        t2 ^ 2 * invSq s (Vec3.alongRay (s.pos i) w t2) j := by
    intro j
    have hn1 : ((s.pos j).sub (Vec3.alongRay (s.pos i) w t1)).sq ≠ 0 :=
      fun e => hv1 j ((sq_sub_eq_zero_iff _ _).mp e)
    have hn2 : ((s.pos j).sub (Vec3.alongRay (s.pos i) w t2)).sq ≠ 0 :=
      fun e => hv2 j ((sq_sub_eq_zero_iff _ _).mp e)
    have hp1 := lt_of_le_of_ne (sq_nonneg_real _) (Ne.symm hn1)
    have hp2 := lt_of_le_of_ne (sq_nonneg_real _) (Ne.symm hn2)
    simp only [invSq, hn1, hn2, if_false]
    rw [sq_sub_alongRay, hw] at hp1 hp2 ⊢
    rw [sq_sub_alongRay, hw]
    have hr := ratio_mono t1 t2 (w.dot ((s.pos j).sub (s.pos i)))
      ((s.pos j).sub (s.pos i)).sq ht1 ht (sq_nonneg_real _) (hfar j)
      (by linarith) (by linarith)
    have e1 : t1 ^ 2 * (1 / (((s.pos j).sub (s.pos i)).sq -
        2 * t1 * w.dot ((s.pos j).sub (s.pos i)) + t1 ^ 2 * 1)) =
        t1 ^ 2 / (((s.pos j).sub (s.pos i)).sq -
          2 * t1 * w.dot ((s.pos j).sub (s.pos i)) + t1 ^ 2) := by
      rw [mul_one, mul_one_div]
    have e2 : t2 ^ 2 * (1 / (((s.pos j).sub (s.pos i)).sq -
        2 * t2 * w.dot ((s.pos j).sub (s.pos i)) + t2 ^ 2 * 1)) =
        t2 ^ 2 / (((s.pos j).sub (s.pos i)).sq -
          2 * t2 * w.dot ((s.pos j).sub (s.pos i)) + t2 ^ 2) := by
      rw [mul_one, mul_one_div]
    rw [e1, e2]
    exact hr
  have hsum : ∑ j, t1 ^ 2 * invSq s (Vec3.alongRay (s.pos i) w t1) j ≤
      ∑ j, t2 ^ 2 * invSq s (Vec3.alongRay (s.pos i) w t2) j :=
    Finset.sum_le_sum (fun j _ => hterm j)
  have hpos : 0 < ∑ j, t1 ^ 2 * invSq s (Vec3.alongRay (s.pos i) w t1) j := by
    haveI : Nonempty (Fin N) := ⟨i⟩
    apply Finset.sum_pos _ Finset.univ_nonempty
    intro j _
    have := invSq_pos s (Vec3.alongRay (s.pos i) w t1) j (hv1 j)
    positivity
  rw [g1, g2]
  exact div_le_div_of_nonneg_left hR (Real.sqrt_pos.mpr hpos) (Real.sqrt_le_sqrt hsum)

/-- Witness of C13 (amended): a stereo pair at (∓1,0,0), the ray from speaker 0 away from
speaker 1, distances 1 and 2. -/
theorem gain_monotone_along_ray_witness :
    gain Real.sqrt
        (calcRolloff Real.rpow (⟨![⟨-1, 0, 0⟩, ⟨1, 0, 0⟩], 1, ![1, 0]⟩ : SpeakerLayout ℝ 2) 3)
        ⟨0, fun _ => 0⟩
        (Vec3.alongRay ((⟨![⟨-1, 0, 0⟩, ⟨1, 0, 0⟩], 1, ![1, 0]⟩ : SpeakerLayout ℝ 2).pos 0)
          ⟨-1, 0, 0⟩ 2) 0 ≤
      gain Real.sqrt
        (calcRolloff Real.rpow (⟨![⟨-1, 0, 0⟩, ⟨1, 0, 0⟩], 1, ![1, 0]⟩ : SpeakerLayout ℝ 2) 3)
        ⟨0, fun _ => 0⟩
        (Vec3.alongRay ((⟨![⟨-1, 0, 0⟩, ⟨1, 0, 0⟩], 1, ![1, 0]⟩ : SpeakerLayout ℝ 2).pos 0)
          ⟨-1, 0, 0⟩ 1) 0 :=
  gain_monotone_along_ray 2 ⟨![⟨-1, 0, 0⟩, ⟨1, 0, 0⟩], 1, ![1, 0]⟩ 3 ⟨0, fun _ => 0⟩
    ⟨0, fun _ => 0⟩ 0 ⟨-1, 0, 0⟩ 1 2 rfl rfl (by norm_num [Vec3.sq]) (by norm_num)
    (by norm_num)
    (by intro j; fin_cases j <;> norm_num [Vec3.alongRay])
    (by intro j; fin_cases j <;> norm_num [Vec3.alongRay])
    (by intro j; fin_cases j <;> norm_num [Vec3.dot, Vec3.sub, Vec3.sq])

/-- Claim C14, evaluated on the code: `sum` is read before it is ever assigned.  On the
Desktop layout constructed with decay 0, the source at `(3,0,0)` (speaker 1 at distance 2,
speaker 0 at distance 4) and `sum` holding `-5/16` beforehand, the accumulated sum is `0`,
`k` divides by `sqrt(0)`, and the nearer speaker does not get the larger gain: both entries
are equal (they are `0` in the real field, where a division by zero yields `0`). -/
theorem mix_near_speaker_leftover_sum {Q : Type} (g : Gfx ℝ Q) (mem : SpeakerLayout ℝ 2)
    (dist : Nat → ℝ) :
    (mixLoop Real.sqrt (construct Real.rpow g Layout.Desktop mem 0) ⟨-5 / 16, dist⟩
        ⟨3, 0, 0⟩).2 = 0 ∧
      mix Real.sqrt (construct Real.rpow g Layout.Desktop mem 0) ⟨-5 / 16, dist⟩ ⟨3, 0, 0⟩ =
        [0, 0] := by
  have hs : ∑ j : Fin 2, invSq (construct Real.rpow g Layout.Desktop mem 0) ⟨3, 0, 0⟩ j =
      5 / 16 := by
    rw [Fin.sum_univ_two]
    simp only [invSq, construct_desktop_pos0, construct_desktop_pos1, Vec3.sub, Vec3.sq]
    norm_num
  constructor
  · rw [mixLoop_snd, hs]
    norm_num
  · rw [mix_two]
    simp only [gainSpec, hs]
    norm_num

/-- Claim C15, evaluated on the code: the guard keeps the divisions of the first loop away
from zero, but `sum` is read before it is ever assigned.  On the Desktop layout constructed
with decay 0, the source at the origin and `sum` holding `-2` beforehand, the divisors of
`mix` are `1, 1, 1, 1` in the loop and `sqrt(sum) = 0` for `k`. -/
theorem mix_divides_by_zero_leftover_sum {Q : Type} (g : Gfx ℝ Q) (mem : SpeakerLayout ℝ 2)
    (dist : Nat → ℝ) :
    mixDivisors Real.sqrt (construct Real.rpow g Layout.Desktop mem 0) ⟨-2, dist⟩ ⟨0, 0, 0⟩ =
      [1, 1, 1, 1, 0] := by
  have hs : ∑ j : Fin 2, invSq (construct Real.rpow g Layout.Desktop mem 0) ⟨0, 0, 0⟩ j =
      2 := by
    rw [Fin.sum_univ_two]
    simp only [invSq, construct_desktop_pos0, construct_desktop_pos1, Vec3.sub, Vec3.sq]
    norm_num
  unfold mixDivisors
  rw [mixLoop_snd, hs]
  have hf : List.finRange 2 = [0, 1] := rfl
  rw [hf]
  simp only [List.flatMap_cons, List.flatMap_nil, passDivisors, construct_desktop_pos0,
    construct_desktop_pos1, Vec3.sub, Vec3.sq]
  norm_num

/-- Claim C16, evaluated on the code: with the source on speaker 0 of the Desktop layout
(decay 0, sum started at zero) the gain of channel 0 is the leftover content of `dist`
times `k`: two calls with the same layout and source return `[-2, 1]` when `dist` held `-1`
and `[2, 1]` when it held `1`. -/
theorem mix_on_speaker_depends_on_leftover {Q : Type} (g : Gfx ℝ Q)
    (mem : SpeakerLayout ℝ 2) :
    mix Real.sqrt (construct Real.rpow g Layout.Desktop mem 0) ⟨0, fun _ => -1⟩
        ⟨-1, 0, 0⟩ = [-2, 1] ∧
      mix Real.sqrt (construct Real.rpow g Layout.Desktop mem 0) ⟨0, fun _ => 1⟩
        ⟨-1, 0, 0⟩ = [2, 1] := by
  have hR : (construct Real.rpow g Layout.Desktop mem 0).RollOff = 1 := by
    rw [construct_desktop_RollOff]
    simp
  have hA := gainSpec_on_speaker0 (construct Real.rpow g Layout.Desktop mem 0)
    ⟨0, fun _ => -1⟩ rfl (construct_desktop_pos0 _ _ _ _) (construct_desktop_pos1 _ _ _ _)
  have hB := gainSpec_on_speaker0 (construct Real.rpow g Layout.Desktop mem 0)
    ⟨0, fun _ => 1⟩ rfl (construct_desktop_pos0 _ _ _ _) (construct_desktop_pos1 _ _ _ _)
  rw [hR] at hA hB
  constructor
  · rw [mix_two, hA.1, hA.2]
    norm_num
  · rw [mix_two, hB.1, hB.2]
    norm_num

/-- Claim C17: the Sphere placement routine writes exactly the slots `[0,12)`, `[16,46)`
and `[48,60)`.  A slot `i` of `[12,16)` or `[46,48)` holds after `init` what it held
before, and after construction it holds the default value the slot started with; every
other slot is overwritten, its content after `init` not depending on the content before. -/
theorem initAllo_frame [Field α] {Q : Type} (g : Gfx α Q) (s : SpeakerLayout α 60)
    (i : Fin 60)
    (hi : (12 ≤ (i : Nat) ∧ (i : Nat) < 16) ∨ (46 ≤ (i : Nat) ∧ (i : Nat) < 48)) :
    (initAllo g s).pos i = s.pos i ∧
      (∀ (pow : α → α → α) (dflt : Vec3 α) (raw : SpeakerLayout α 60) (r : α),
        (construct pow g Layout.Allo (defaultInit dflt raw) r).pos i = dflt) ∧
      (∀ (j : Fin 60) (t : SpeakerLayout α 60),
        ((j : Nat) < 12 ∨ (16 ≤ (j : Nat) ∧ (j : Nat) < 46) ∨ 48 ≤ (j : Nat)) →
        (initAllo g s).pos j = (initAllo g t).pos j) := by
  refine ⟨initAllo_pos_gap g s i hi, ?_, ?_⟩
  · intro pow dflt raw r
    show (initAllo g (calcRolloff pow (defaultInit dflt raw) r)).pos i = dflt
    rw [initAllo_pos_gap g _ i hi]
    rfl
  · intro j t hj
    have hs := initAllo_pos_ring g s j
    have ht := initAllo_pos_ring g t j
    rcases hj with hj | ⟨h1, h2⟩ | hj
    · rw [hs.1 hj, ht.1 hj]
    · rw [hs.2.1 h1 h2, ht.2.1 h1 h2]
    · rw [hs.2.2 hj, ht.2.2 hj]

/-- Witness of C17: slot 13 of a Sphere layout over zero-filled storage. -/
theorem initAllo_frame_witness :
    ((12 ≤ ((13 : Fin 60) : Nat) ∧ ((13 : Fin 60) : Nat) < 16) ∨
        (46 ≤ ((13 : Fin 60) : Nat) ∧ ((13 : Fin 60) : Nat) < 48)) ∧
      (initAllo (gfxModel Real.cos Real.sin Real.pi) (zeroed ℝ 60)).pos 13 =
        (zeroed ℝ 60).pos 13 :=
  ⟨by decide, (initAllo_frame (gfxModel Real.cos Real.sin Real.pi) (zeroed ℝ 60) 13
    (by decide)).1⟩

/-- Claim C18: every position the Sphere placement routine writes (slots `[0,12)`,
`[16,46)`, `[48,60)`) has Euclidean norm 1 over the reals, the gfx rotations being the
conjugations `q v q⁻¹` by axis-angle quaternions about unit axes. -/
theorem initAllo_on_unit_sphere (s : SpeakerLayout ℝ 60) (i : Fin 60)
    (hi : (i : Nat) < 12 ∨ (16 ≤ (i : Nat) ∧ (i : Nat) < 46) ∨ 48 ≤ (i : Nat)) :
    Vec3.norm Real.sqrt ((initAllo (gfxModel Real.cos Real.sin Real.pi) s).pos i) = 1 := by
  unfold Vec3.norm
  rw [initAllo_written_sq Real.pi s i hi]
  exact Real.sqrt_one

/-- Witness of C18: slot 20 (middle ring) of a Sphere layout over zero-filled storage. -/
theorem initAllo_on_unit_sphere_witness :
    (((20 : Fin 60) : Nat) < 12 ∨ (16 ≤ ((20 : Fin 60) : Nat) ∧ ((20 : Fin 60) : Nat) < 46) ∨
        48 ≤ ((20 : Fin 60) : Nat)) ∧
      Vec3.norm Real.sqrt
        ((initAllo (gfxModel Real.cos Real.sin Real.pi) (zeroed ℝ 60)).pos 20) = 1 :=
  ⟨by decide, initAllo_on_unit_sphere (zeroed ℝ 60) 20 (by decide)⟩

/-- Claim C19: power normalisation.  For every layout (of at least one speaker, as every
array `pos[N]` has) and every source position on no speaker, with the running sum started
at zero and over the reals, the squares of the gains returned by `mix` add up to the
square of the rolloff. -/
theorem mix_power_normalised (N : Nat) (hN : 0 < N) (s : SpeakerLayout ℝ N)
    (u : Indeterminate ℝ) (v : Vec3 ℝ) (hsum : u.sum = 0) (hv : ∀ j : Fin N, s.pos j ≠ v) :
    ((mix Real.sqrt s u v).map (fun x => x ^ 2)).sum = s.RollOff ^ 2 := by
  rw [mix_eq_ofFn, List.map_ofFn, List.sum_ofFn]
  have hS : 0 < ∑ j, invSq s v j := by
    haveI : Nonempty (Fin N) := ⟨⟨0, hN⟩⟩
    exact Finset.sum_pos (fun j _ => invSq_pos s v j (hv j)) Finset.univ_nonempty
  have hterm : ∀ i : Fin N, ((fun x => x ^ 2) ∘ gainSpec Real.sqrt s u v) i =
      invSq s v i * (s.RollOff ^ 2 / ∑ j, invSq s v j) := by
    intro i
    simp only [Function.comp_apply, gainSpec, hsum, zero_add]
    rw [mul_pow, rawDist_sq s u v i (hv i), div_pow, Real.sq_sqrt (le_of_lt hS)]
  simp only [hterm]
  rw [← Finset.sum_mul]
  field_simp

/-- Witness of C19: a stereo pair at (∓1,0,0) with rolloff 3 and the source at (0,1,0). -/
theorem mix_power_normalised_witness :
    ((mix Real.sqrt (⟨![⟨-1, 0, 0⟩, ⟨1, 0, 0⟩], 3, ![1, 0]⟩ : SpeakerLayout ℝ 2)
        ⟨0, fun _ => 0⟩ ⟨0, 1, 0⟩).map (fun x => x ^ 2)).sum = (3 : ℝ) ^ 2 :=
  mix_power_normalised 2 (by decide) ⟨![⟨-1, 0, 0⟩, ⟨1, 0, 0⟩], 3, ![1, 0]⟩
    ⟨0, fun _ => 0⟩ ⟨0, 1, 0⟩ rfl (by intro j; fin_cases j <;> simp)

/-- Claim C20: for every even layout size `N` and every channel `0 ≤ ch < N`, `opp` is a
fixed-point-free involution of `[0, N)`: `0 ≤ opp(ch) < N`, `opp(ch) ≠ ch` and
`opp(opp(ch)) = ch`. -/
theorem opp_involution (N : Nat) (hN : N % 2 = 0) (ch : Int) (h0 : 0 ≤ ch) (h1 : ch < N) :
    0 ≤ opp N ch ∧ opp N ch < N ∧ opp N ch ≠ ch ∧ opp N (opp N ch) = ch := by
  obtain ⟨m, hm⟩ : ∃ m : Int, (N : Int) = 2 * m := ⟨(N : Int) / 2, by omega⟩
  have hhalf : (N : Int) / 2 = m := by omega
  have hopp : opp N ch = if ch < m then ch + m else ch - m := by
    rw [opp_eq_emod N ch h0, hhalf, hm]
    split
    · exact Int.emod_eq_of_lt (by omega) (by omega)
    · have e : ch + m = (ch - m) + 1 * (2 * m) := by ring
      rw [e, Int.add_mul_emod_self]
      exact Int.emod_eq_of_lt (by omega) (by omega)
  have hr0 : 0 ≤ opp N ch := by
    rw [hopp]
    split <;> omega
  have hopp2 : opp N (opp N ch) = if opp N ch < m then opp N ch + m else opp N ch - m := by
    rw [opp_eq_emod N (opp N ch) hr0, hhalf, hm]
    split
    · exact Int.emod_eq_of_lt (by omega) (by rw [hopp] at *; split at * <;> omega)
    · have e : opp N ch + m = (opp N ch - m) + 1 * (2 * m) := by ring
      rw [e, Int.add_mul_emod_self]
      exact Int.emod_eq_of_lt (by omega) (by rw [hopp] at *; split at * <;> omega)
  refine ⟨hr0, ?_, ?_, ?_⟩
  · rw [hopp]
    split <;> omega
  · rw [hopp]
    split <;> omega
  · rw [hopp2, hopp]
    split <;> split <;> omega

/-- Witness of C20: the Sphere layout, channel 47, whose opposite is channel 17. -/
theorem opp_involution_witness :
    (60 : Nat) % 2 = 0 ∧ (0 : Int) ≤ 47 ∧ (47 : Int) < ((60 : Nat) : Int) ∧
      (0 ≤ opp 60 47 ∧ opp 60 47 < ((60 : Nat) : Int) ∧ opp 60 47 ≠ 47 ∧
        opp 60 (opp 60 47) = 47) :=
  ⟨by decide, by decide, by decide, opp_involution 60 (by decide) 47 (by decide) (by decide)⟩

end SpeakerLayout

end hs
